import Mathlib

/-!
A shallow embedding of `src/ColorReducer/main.cpp` (color_reducer).

Conventions of the embedding.

* `Color` / `Pixel` (`std::uint32_t`) are natural numbers below `2 ^ 32`; a byte of
  an `ImageData` (`std::vector<unsigned char>`) is a natural number below `256`.
* An `ImageIt` is an index into the buffer.  A dereference outside the buffer is
  undefined behaviour in C++; here it is the explicit result `Fault.outOfBounds`.
* `int` is 32 bits wide.  Signed overflow, undefined behaviour in C++, is modelled as
  wrap-around modulo `2 ^ 32` (`wrapInt32`).
* The `float` values that occur are conversions of an `int` and
  `std::numeric_limits<float>::max()`.  All of them are integers, so a `float` is
  modelled by the integer it denotes; the conversion `int -> float` rounds to 24
  significant bits, ties to even (`intToFloat`).
* `std::unordered_map` is an association list with unique keys.  Its iteration order
  and the order `std::sort` leaves equal counts in are not fixed by the language:
  `reduceColors` takes the composition of both as the parameter `stdSort`, constrained
  only by `StdSortContract`.
* `std::unordered_set` is a list without duplicates, in insertion order.  Its iteration
  order is not fixed by the language either: `loadPalette` takes it as the parameter
  `setOrder`, constrained only by `UnorderedSetOrder`.  The call of `lodepng::decode` and
  the output to `std::cout` are outside the embedding: `loadPalette` starts from the
  decoded buffer.
* The two lambdas handed to `replaceColorsByClosestOne` mutate a captured histogram;
  here they are state transformers on an explicit state `σ`.
-/

namespace ColorReducer

/-! ## Data model -/

abbrev Pixel := Nat
abbrev Color := Pixel
abbrev ImageData := List Nat
abbrev Palette := List Color
abbrev Histogram := List (Color × Nat)
abbrev ColorMap := List (Color × Color)

/-- Size of a pixel in bytes: `sizeof(Pixel)`. -/
def PixelSize : Nat := 4

/-- Ways a traversal of the embedding can stop without a result. `outOfBounds`: the code
dereferences an iterator outside the buffer, which C++ leaves undefined and the code does
not check. `outOfFuel`: the fuel of the embedding ran out before the loop ended. -/
inductive Fault where
  | outOfBounds
  | outOfFuel
  deriving DecidableEq

/-! ## Colour model -/

def red (color : Color) : Nat := (color &&& 0xFF000000) >>> 24

def green (color : Color) : Nat := (color &&& 0x00FF0000) >>> 16

def blue (color : Color) : Nat := (color &&& 0x0000FF00) >>> 8

def alpha (color : Color) : Nat := color &&& 0x000000FF

/-- Reads the four bytes at `it .. it + 3` and packs them as RGBA. -/
def getPixel (image : ImageData) (it : Nat) : Option Pixel :=
  match image[it]?, image[it + 1]?, image[it + 2]?, image[it + 3]? with
  | some r, some g, some b, some a => some (r <<< 24 ||| g <<< 16 ||| b <<< 8 ||| a)
  | _, _, _, _ => none

/-- Writes the four channels of `color` to the bytes at `it .. it + 3`. -/
def setPixel (image : ImageData) (it : Nat) (color : Color) : ImageData :=
  (((image.set it (red color)).set (it + 1) (green color)).set (it + 2) (blue color)).set
    (it + 3) (alpha color)

/-! ## Distance and nearest colour -/

/-- Reduction of an integer modulo `2 ^ 32` into the range of a 32-bit `int`. -/
def wrapInt32 (x : Int) : Int := (x + 2 ^ 31) % 2 ^ 32 - 2 ^ 31

/-- Number of low bits a magnitude below `2 ^ 32` loses when stored in a 24-bit
significand. -/
def droppedBits (m : Nat) : Nat :=
  if m < 2 ^ 24 then 0
  else if m < 2 ^ 25 then 1
  else if m < 2 ^ 26 then 2
  else if m < 2 ^ 27 then 3
  else if m < 2 ^ 28 then 4
  else if m < 2 ^ 29 then 5
  else if m < 2 ^ 30 then 6
  else if m < 2 ^ 31 then 7
  else 8

/-- Rounds a magnitude to a multiple of `2 ^ e`, to nearest, ties to even. -/
def roundNearestEven (m e : Nat) : Nat :=
  let q := m / 2 ^ e
  let r := m % 2 ^ e
  if 2 * r < 2 ^ e then q * 2 ^ e
  else if 2 * r = 2 ^ e ∧ q % 2 = 0 then q * 2 ^ e
  else (q + 1) * 2 ^ e

/-- Conversion of a 32-bit `int` to `float`: the integer value of the nearest `float`. -/
def intToFloat (x : Int) : Int :=
  if 0 ≤ x then (roundNearestEven x.natAbs (droppedBits x.natAbs) : Nat)
  else -((roundNearestEven x.natAbs (droppedBits x.natAbs) : Nat) : Int)

/-- The value of `std::numeric_limits<float>::max()`, `(2 ^ 24 - 1) * 2 ^ 104`. -/
def floatMax : Int := 340282346638528859811704183484516925440

/-- The `int` value of the `return` expression of `colorSquareDistance`, before its
conversion to `float`. -/
def colorSquareDistanceInt (c1 c2 : Color) : Int :=
  let redDifference : Int := (red c1 : Int) - (red c2 : Int)
  let greenDifference : Int := (green c1 : Int) - (green c2 : Int)
  let blueDifference : Int := (blue c1 : Int) - (blue c2 : Int)
  let alphaDifference : Int := (alpha c1 : Int) * (alpha c2 : Int)
  wrapInt32
    (wrapInt32
      (wrapInt32 (wrapInt32 (redDifference * redDifference)
          + wrapInt32 (greenDifference * greenDifference))
        + wrapInt32 (blueDifference * blueDifference))
      + wrapInt32 (alphaDifference * alphaDifference))

def colorSquareDistance (c1 c2 : Color) : Int :=
  intToFloat (colorSquareDistanceInt c1 c2)

/-- One iteration of the loop of `findClosestColor` on the pair
`(closestColor, distance)`. -/
def findClosestStep (color : Color) (st : Color × Int) (paletteColor : Color) :
    Color × Int :=
  let d := colorSquareDistance color paletteColor
  if d < st.2 then (paletteColor, d) else st

def findClosestColor (color : Color) (palette : Palette) : Color :=
  (palette.foldl (findClosestStep color) (color, floatMax)).1

/-! ## Memoized quantizer -/

/-- The loop of `replaceColorsByClosestOne` from iterator position `it` on, with the
cache `colorMap` and the state `st` the two callbacks act on. -/
def replaceLoop {σ : Type} (palette : Palette) (onColorCacheMiss onColorCacheHit : Color → σ → σ) :
    Nat → Nat → ImageData → ColorMap → σ → Except Fault (ImageData × σ)
  | 0, _, _, _, _ => .error .outOfFuel
  | fuel + 1, it, image, colorMap, st =>
    if it = image.length then .ok (image, st)
    else
      match getPixel image it with
      | none => .error .outOfBounds
      | some color =>
        match colorMap.lookup color with
        | none =>
          let closestColor := findClosestColor color palette
          replaceLoop palette onColorCacheMiss onColorCacheHit fuel (it + PixelSize)
            (setPixel image it closestColor) ((color, closestColor) :: colorMap)
            (onColorCacheMiss closestColor st)
        | some closestColor =>
          replaceLoop palette onColorCacheMiss onColorCacheHit fuel (it + PixelSize)
            (setPixel image it closestColor) colorMap (onColorCacheHit closestColor st)

/-- The lambda `replaceColorsByClosestOne`; `init` is the initial value of what the
callbacks capture.  The fuel `image.length + 1` exceeds the number of iterations of
any run that stays inside the buffer. -/
def replaceColorsByClosestOne {σ : Type} (image : ImageData) (palette : Palette)
    (onColorCacheMiss onColorCacheHit : Color → σ → σ) (init : σ) :
    Except Fault (ImageData × σ) :=
  replaceLoop palette onColorCacheMiss onColorCacheHit (image.length + 1) 0 image [] init

/-- The assignment `histogram[color] = value`. -/
def histogramAssign : Histogram → Color → Nat → Histogram
  | [], color, value => [(color, value)]
  | (k, v) :: rest, color, value =>
    if k = color then (k, value) :: rest else (k, v) :: histogramAssign rest color value

/-- The statement `histogram[color] ++`; a missing key is first inserted with the
value-initialised count `0`. -/
def histogramIncrement : Histogram → Color → Histogram
  | [], color => [(color, 0 + 1)]
  | (k, v) :: rest, color =>
    if k = color then (k, v + 1) :: rest else (k, v) :: histogramIncrement rest color

/-- Returns the quantized buffer together with the histogram. -/
def convertImageToPaletteAndGetHistogram (image : ImageData) (palette : Palette) :
    Except Fault (ImageData × Histogram) :=
  replaceColorsByClosestOne image palette
    (fun color histogram => histogramAssign histogram color 1)
    (fun color histogram => histogramIncrement histogram color)
    []

/-! ## Palette reducer -/

/-- The local struct `ColorFrequency` of `reduceColors`. -/
structure ColorFrequency where
  color : Color
  count : Nat
  deriving DecidableEq

/-- The contract of "iterate the `unordered_map`, then `std::sort` with the comparator
`v1.count > v2.count`": the result is a rearrangement of the input in which no entry
is followed by one with a strictly greater count. -/
def StdSortContract (stdSort : List ColorFrequency → List ColorFrequency) : Prop :=
  ∀ l, (stdSort l).Perm l ∧ (stdSort l).Pairwise (fun v1 v2 => ¬ v2.count > v1.count)

/-- The vector `colorFrequency` after the sort and the `resize`. -/
def truncatedFrequencies (stdSort : List ColorFrequency → List ColorFrequency)
    (histogram : Histogram) (maximumColorNumber : Nat) : List ColorFrequency :=
  let colorFrequency := stdSort (histogram.map (fun pair => ColorFrequency.mk pair.1 pair.2))
  if colorFrequency.length > maximumColorNumber then colorFrequency.take maximumColorNumber
  else colorFrequency

/-- The local `reducedPalette` of `reduceColors`. -/
def reducedPalette (stdSort : List ColorFrequency → List ColorFrequency)
    (histogram : Histogram) (maximumColorNumber : Nat) : Palette :=
  (truncatedFrequencies stdSort histogram maximumColorNumber).map (fun colorCounting =>
    colorCounting.color)

/-- The function `reduceColors`: builds the reduced palette and re-runs the quantizer with
the two empty callbacks. Returns the mutated buffer. -/
def reduceColors (stdSort : List ColorFrequency → List ColorFrequency) (image : ImageData)
    (histogram : Histogram) (maximumColorNumber : Nat) : Except Fault ImageData :=
  (replaceColorsByClosestOne image (reducedPalette stdSort histogram maximumColorNumber)
    (fun _ (u : Unit) => u) (fun _ (u : Unit) => u) ()).map Prod.fst

/-- Insertion of an entry before the first entry of strictly smaller count. -/
def insertByCount (v : ColorFrequency) : List ColorFrequency → List ColorFrequency
  | [] => [v]
  | w :: rest => if w.count < v.count then v :: w :: rest else w :: insertByCount v rest

/-- One admissible behaviour of the sort: insertion sort by decreasing count, used to
evaluate `reduceColors` on concrete inputs. -/
def sortByCount : List ColorFrequency → List ColorFrequency
  | [] => []
  | v :: rest => insertByCount v (sortByCount rest)

/-! ## Pixel-level view of a buffer -/

/-- The pixels of a buffer, read with `getPixel` at the positions `0, 4, 8, ...` of its
complete 4-byte groups. -/
def pixelsOf (image : ImageData) : List Pixel :=
  (List.range (image.length / PixelSize)).filterMap (fun i => getPixel image (i * PixelSize))

/-- The same pixels, by splitting the buffer into groups of four bytes. -/
def chunkPixels : ImageData → List Pixel
  | r :: g :: b :: a :: rest => (r <<< 24 ||| g <<< 16 ||| b <<< 8 ||| a) :: chunkPixels rest
  | _ => []

/-- The bytes `setPixel` writes for a sequence of colours. -/
def encodePixels : List Color → ImageData
  | [] => []
  | c :: cs => red c :: green c :: blue c :: alpha c :: encodePixels cs

/-- The traversal of `replaceColorsByClosestOne` on the sequence of pixel colours rather
than on bytes: the new colours and the final state of the callbacks. -/
def quantizePixels {σ : Type} (palette : Palette) (onColorCacheMiss onColorCacheHit : Color → σ → σ) :
    List Color → ColorMap → σ → List Color × σ
  | [], _, st => ([], st)
  | color :: rest, colorMap, st =>
    match colorMap.lookup color with
    | none =>
      let closestColor := findClosestColor color palette
      let r := quantizePixels palette onColorCacheMiss onColorCacheHit rest
        ((color, closestColor) :: colorMap) (onColorCacheMiss closestColor st)
      (closestColor :: r.1, r.2)
    | some closestColor =>
      let r := quantizePixels palette onColorCacheMiss onColorCacheHit rest colorMap
        (onColorCacheHit closestColor st)
      (closestColor :: r.1, r.2)

/-- A cache in which every key is bound to its nearest palette colour. -/
def CacheSound (palette : Palette) (colorMap : ColorMap) : Prop :=
  ∀ k v, colorMap.lookup k = some v → v = findClosestColor k palette

/-- The count a histogram stores for a colour, `0` for a colour that is not a key. -/
def histogramCount (histogram : Histogram) (color : Color) : Nat :=
  (histogram.lookup color).getD 0

/-! ## Palette extractor -/

/-- The contract of iterating a `std::unordered_set`: every element once, in an order
the language does not fix. -/
def UnorderedSetOrder (setOrder : List Pixel → List Pixel) : Prop :=
  ∀ l, (setOrder l).Perm l

/-- The scan of `loadPalette` from iterator position `it` on; `uniqueColors` holds the
elements of the set in the order of their insertion. -/
def loadPaletteLoop : Nat → Nat → ImageData → List Pixel → Except Fault (List Pixel)
  | 0, _, _, _ => .error .outOfFuel
  | fuel + 1, it, image, uniqueColors =>
    if it = image.length then .ok uniqueColors
    else
      match getPixel image it with
      | none => .error .outOfBounds
      | some pixel =>
        if pixel ∈ uniqueColors then
          loadPaletteLoop fuel (it + PixelSize) image uniqueColors
        else
          loadPaletteLoop fuel (it + PixelSize) image (uniqueColors ++ [pixel])

/-- The function `loadPalette` on the buffer `image` that `lodepng::decode` delivered:
the scan, then the copy of the set into a vector in the iteration order `setOrder` of the
set. -/
def loadPalette (setOrder : List Pixel → List Pixel) (image : ImageData) :
    Except Fault Palette :=
  (loadPaletteLoop (image.length + 1) 0 image []).map setOrder

/-- The scan of `loadPalette` on the sequence of pixel colours rather than on bytes. -/
def collectUnique : List Pixel → List Pixel → List Pixel
  | [], uniqueColors => uniqueColors
  | pixel :: rest, uniqueColors =>
    if pixel ∈ uniqueColors then collectUnique rest uniqueColors
    else collectUnique rest (uniqueColors ++ [pixel])

/-! ## Reference behaviour -/

/-- The buffer obtained by replacing every pixel independently: pixel `i` of the result
is the nearest palette colour of pixel `i` of the original buffer, without a cache. -/
def replaceEachPixel (image : ImageData) (palette : Palette) : ImageData :=
  (List.range (image.length / PixelSize)).foldl
    (fun result i =>
      match getPixel image (i * PixelSize) with
      | some color => setPixel result (i * PixelSize) (findClosestColor color palette)
      | none => result)
    image

/-- A call of one of the two callbacks of `replaceColorsByClosestOne`, with its
argument. -/
inductive CacheEvent where
  | miss (closestColor : Color)
  | hit (closestColor : Color)
  deriving DecidableEq

/-- Whether an event is a call of the cache-miss callback. -/
def CacheEvent.isMiss : CacheEvent → Bool
  | .miss _ => true
  | .hit _ => false

/-- Whether an event is a call of the cache-hit callback. -/
def CacheEvent.isHit : CacheEvent → Bool
  | .miss _ => false
  | .hit _ => true

/-- The calls expected for a sequence of original colours: a miss at the first occurrence
of a colour, a hit at every later one, each with the nearest palette colour. -/
def expectedEvents (palette : Palette) : List Color → List Color → List CacheEvent
  | [], _ => []
  | color :: rest, seen =>
    (if color ∈ seen then CacheEvent.hit (findClosestColor color palette)
      else CacheEvent.miss (findClosestColor color palette))
      :: expectedEvents palette rest (color :: seen)

/-- The squared distance of the red, green and blue channels alone. -/
def rgbSquareDistance (c1 c2 : Color) : Int :=
  ((red c1 : Int) - (red c2 : Int)) ^ 2 + ((green c1 : Int) - (green c2 : Int)) ^ 2
    + ((blue c1 : Int) - (blue c2 : Int)) ^ 2

/-! ## Colour model: arithmetic form of the channels -/

theorem and_shiftRight_distrib (a b i : Nat) : (a &&& b) >>> i = a >>> i &&& b >>> i := by
  apply Nat.eq_of_testBit_eq
  intro j
  simp [Nat.testBit_shiftRight, Nat.testBit_and]

theorem red_eq (c : Color) : red c = c / 2 ^ 24 % 256 := by
  unfold red
  rw [and_shiftRight_distrib]
  have h : (0xFF000000 : Nat) >>> 24 = 2 ^ 8 - 1 := by decide
  rw [h, Nat.and_pow_two_sub_one_eq_mod, Nat.shiftRight_eq_div_pow]

theorem green_eq (c : Color) : green c = c / 2 ^ 16 % 256 := by
  unfold green
  rw [and_shiftRight_distrib]
  have h : (0x00FF0000 : Nat) >>> 16 = 2 ^ 8 - 1 := by decide
  rw [h, Nat.and_pow_two_sub_one_eq_mod, Nat.shiftRight_eq_div_pow]

theorem blue_eq (c : Color) : blue c = c / 2 ^ 8 % 256 := by
  unfold blue
  rw [and_shiftRight_distrib]
  have h : (0x0000FF00 : Nat) >>> 8 = 2 ^ 8 - 1 := by decide
  rw [h, Nat.and_pow_two_sub_one_eq_mod, Nat.shiftRight_eq_div_pow]

theorem alpha_eq (c : Color) : alpha c = c % 256 := by
  unfold alpha
  have h : (0x000000FF : Nat) = 2 ^ 8 - 1 := by decide
  rw [h, Nat.and_pow_two_sub_one_eq_mod]

theorem red_lt (c : Color) : red c < 256 := by rw [red_eq]; omega

theorem green_lt (c : Color) : green c < 256 := by rw [green_eq]; omega

theorem blue_lt (c : Color) : blue c < 256 := by rw [blue_eq]; omega

theorem alpha_lt (c : Color) : alpha c < 256 := by rw [alpha_eq]; omega

/-- The colour `getPixel` composes from four bytes, as a sum. -/
theorem pack_eq (r g b a : Nat) (hg : g < 256) (hb : b < 256) (ha : a < 256) :
    r <<< 24 ||| g <<< 16 ||| b <<< 8 ||| a = r * 2 ^ 24 + g * 2 ^ 16 + b * 2 ^ 8 + a := by
  rw [Nat.shiftLeft_eq, Nat.shiftLeft_eq, Nat.shiftLeft_eq]
  have e1 : 2 ^ 24 * r ||| g * 2 ^ 16 = 2 ^ 24 * r + g * 2 ^ 16 :=
    (Nat.mul_add_lt_is_or (by omega) r).symm
  have e2 : 2 ^ 16 * (r * 2 ^ 8 + g) ||| b * 2 ^ 8 = 2 ^ 16 * (r * 2 ^ 8 + g) + b * 2 ^ 8 :=
    (Nat.mul_add_lt_is_or (by omega) _).symm
  have e3 : 2 ^ 8 * (r * 2 ^ 16 + g * 2 ^ 8 + b) ||| a
      = 2 ^ 8 * (r * 2 ^ 16 + g * 2 ^ 8 + b) + a :=
    (Nat.mul_add_lt_is_or (by omega) _).symm
  rw [show r * 2 ^ 24 = 2 ^ 24 * r by omega, e1,
    show 2 ^ 24 * r + g * 2 ^ 16 = 2 ^ 16 * (r * 2 ^ 8 + g) by omega, e2,
    show 2 ^ 16 * (r * 2 ^ 8 + g) + b * 2 ^ 8 = 2 ^ 8 * (r * 2 ^ 16 + g * 2 ^ 8 + b) by omega,
    e3]

theorem div_div_256 (c k : Nat) : c / 2 ^ k / 256 = c / 2 ^ (k + 8) := by
  rw [Nat.div_div_eq_div_mul, Nat.pow_add]

/-- Packing the four channels of a 32-bit colour gives the colour back. -/
theorem pack_channels (c : Nat) (hc : c < 2 ^ 32) :
    red c <<< 24 ||| green c <<< 16 ||| blue c <<< 8 ||| alpha c = c := by
  rw [pack_eq _ _ _ _ (green_lt c) (blue_lt c) (alpha_lt c), red_eq, green_eq, blue_eq,
    alpha_eq]
  have h1 := div_div_256 c 8
  have h2 := div_div_256 c 16
  have h3 := div_div_256 c 24
  omega

theorem red_mod (c : Color) : red (c % 2 ^ 32) = red c := by
  rw [red_eq, red_eq]; omega

theorem green_mod (c : Color) : green (c % 2 ^ 32) = green c := by
  rw [green_eq, green_eq]; omega

theorem blue_mod (c : Color) : blue (c % 2 ^ 32) = blue c := by
  rw [blue_eq, blue_eq]; omega

theorem alpha_mod (c : Color) : alpha (c % 2 ^ 32) = alpha c := by
  rw [alpha_eq, alpha_eq]; omega

/-- Packing the channels of any natural number reduces it modulo `2 ^ 32`. -/
theorem pack_channels_mod (c : Color) :
    red c <<< 24 ||| green c <<< 16 ||| blue c <<< 8 ||| alpha c = c % 2 ^ 32 := by
  have h := pack_channels (c % 2 ^ 32) (Nat.mod_lt _ (by norm_num))
  rwa [red_mod, green_mod, blue_mod, alpha_mod] at h

theorem red_pack (r g b a : Nat) (hr : r < 256) (hg : g < 256) (hb : b < 256) (ha : a < 256) :
    red (r <<< 24 ||| g <<< 16 ||| b <<< 8 ||| a) = r := by
  rw [pack_eq r g b a hg hb ha, red_eq]; omega

theorem green_pack (r g b a : Nat) (hg : g < 256) (hb : b < 256) (ha : a < 256) :
    green (r <<< 24 ||| g <<< 16 ||| b <<< 8 ||| a) = g := by
  rw [pack_eq r g b a hg hb ha, green_eq]; omega

theorem blue_pack (r g b a : Nat) (hg : g < 256) (hb : b < 256) (ha : a < 256) :
    blue (r <<< 24 ||| g <<< 16 ||| b <<< 8 ||| a) = b := by
  rw [pack_eq r g b a hg hb ha, blue_eq]; omega

theorem alpha_pack (r g b a : Nat) (hg : g < 256) (hb : b < 256) (ha : a < 256) :
    alpha (r <<< 24 ||| g <<< 16 ||| b <<< 8 ||| a) = a := by
  rw [pack_eq r g b a hg hb ha, alpha_eq]; omega

theorem pack_lt (r g b a : Nat) (hr : r < 256) (hg : g < 256) (hb : b < 256) (ha : a < 256) :
    r <<< 24 ||| g <<< 16 ||| b <<< 8 ||| a < 2 ^ 32 := by
  rw [pack_eq r g b a hg hb ha]; omega

/-! ## Distance: range of the `float` values -/

theorem wrapInt32_range (x : Int) : -2 ^ 31 ≤ wrapInt32 x ∧ wrapInt32 x < 2 ^ 31 := by
  unfold wrapInt32
  omega

theorem wrapInt32_of_range (x : Int) (h1 : -2 ^ 31 ≤ x) (h2 : x < 2 ^ 31) : wrapInt32 x = x := by
  unfold wrapInt32
  omega

theorem droppedBits_le (m : Nat) : droppedBits m ≤ 8 := by
  unfold droppedBits
  split_ifs <;> omega

theorem roundNearestEven_le (m e : Nat) : roundNearestEven m e ≤ m + 2 ^ e := by
  have h := Nat.div_mul_le_self m (2 ^ e)
  unfold roundNearestEven
  simp only
  split_ifs
  · omega
  · omega
  · rw [Nat.add_mul]; omega

theorem intToFloat_le (x : Int) : intToFloat x ≤ x.natAbs + 256 := by
  have h1 := roundNearestEven_le x.natAbs (droppedBits x.natAbs)
  have h2 : 2 ^ droppedBits x.natAbs ≤ 2 ^ 8 :=
    Nat.pow_le_pow_right (by norm_num) (droppedBits_le _)
  unfold intToFloat
  split_ifs <;> omega

theorem colorSquareDistanceInt_range (c1 c2 : Color) :
    -2 ^ 31 ≤ colorSquareDistanceInt c1 c2 ∧ colorSquareDistanceInt c1 c2 < 2 ^ 31 := by
  unfold colorSquareDistanceInt
  exact wrapInt32_range _

/-- Every distance is below the initial `distance` of `findClosestColor`. -/
theorem colorSquareDistance_lt_floatMax (c1 c2 : Color) :
    colorSquareDistance c1 c2 < floatMax := by
  have h := intToFloat_le (colorSquareDistanceInt c1 c2)
  have hr := colorSquareDistanceInt_range c1 c2
  unfold colorSquareDistance floatMax
  omega

/-! ## Nearest colour: the linear scan -/

/-- The scan from an arbitrary state `(b, d)`: either nothing in `l` is below `d` and the
state is kept, or the result is the first entry of `l` of minimum distance. -/
theorem foldl_findClosestStep (color : Color) (l : Palette) : ∀ (b : Color) (d : Int),
    (l.foldl (findClosestStep color) (b, d) = (b, d) ∧
        ∀ x ∈ l, d ≤ colorSquareDistance color x) ∨
      ∃ (i : Nat) (h : i < l.length),
        l.foldl (findClosestStep color) (b, d) = (l[i], colorSquareDistance color l[i]) ∧
        colorSquareDistance color l[i] < d ∧
        (∀ (j : Nat) (hj : j < l.length),
          colorSquareDistance color l[i] ≤ colorSquareDistance color l[j]) ∧
        ∀ (k : Nat) (hk : k < i),
          colorSquareDistance color l[i] < colorSquareDistance color l[k] := by
  induction l with
  | nil => intro b d; left; simp
  | cons p t ih =>
    intro b d
    rw [List.foldl_cons]
    by_cases hp : colorSquareDistance color p < d
    · have hs : findClosestStep color (b, d) p = (p, colorSquareDistance color p) := by
        simp [findClosestStep, hp]
      rw [hs]
      rcases ih p (colorSquareDistance color p) with ⟨heq, hall⟩ | ⟨i, h, heq, hlt, hmin, hfirst⟩
      · right
        refine ⟨0, by simp, by simpa using heq, by simpa using hp, ?_, ?_⟩
        · intro j hj
          cases j with
          | zero => simp
          | succ j =>
            simp only [List.getElem_cons_zero, List.getElem_cons_succ]
            exact hall _ (List.getElem_mem _)
        · intro k hk; omega
      · right
        refine ⟨i + 1, by simpa using h, by simpa using heq, ?_, ?_, ?_⟩
        · simp only [List.getElem_cons_succ]; omega
        · intro j hj
          cases j with
          | zero => simp only [List.getElem_cons_zero, List.getElem_cons_succ]; omega
          | succ j =>
            simp only [List.getElem_cons_succ]
            exact hmin j (by simpa using hj)
        · intro k hk
          cases k with
          | zero => simpa using hlt
          | succ k =>
            simp only [List.getElem_cons_succ]
            exact hfirst k (by omega)
    · have hs : findClosestStep color (b, d) p = (b, d) := by
        simp [findClosestStep, hp]
      rw [hs]
      rcases ih b d with ⟨heq, hall⟩ | ⟨i, h, heq, hlt, hmin, hfirst⟩
      · left
        refine ⟨heq, ?_⟩
        intro x hx
        rcases List.mem_cons.1 hx with rfl | hx
        · omega
        · exact hall x hx
      · right
        refine ⟨i + 1, by simpa using h, by simpa using heq, by simpa using hlt, ?_, ?_⟩
        · intro j hj
          cases j with
          | zero => simp only [List.getElem_cons_zero, List.getElem_cons_succ]; omega
          | succ j =>
            simp only [List.getElem_cons_succ]
            exact hmin j (by simpa using hj)
        · intro k hk
          cases k with
          | zero => simp only [List.getElem_cons_zero, List.getElem_cons_succ]; omega
          | succ k =>
            simp only [List.getElem_cons_succ]
            exact hfirst k (by omega)

/-- On a non-empty palette the scan returns the first entry of minimum distance. -/
theorem findClosestColor_spec (color : Color) (palette : Palette) (hne : palette ≠ []) :
    ∃ (i : Nat) (h : i < palette.length),
      findClosestColor color palette = palette[i] ∧
      (∀ (j : Nat) (hj : j < palette.length),
        colorSquareDistance color palette[i] ≤ colorSquareDistance color palette[j]) ∧
      ∀ (k : Nat) (hk : k < i),
        colorSquareDistance color palette[i] < colorSquareDistance color palette[k] := by
  rcases foldl_findClosestStep color palette color floatMax with
    ⟨_, hall⟩ | ⟨i, h, heq, _, hmin, hfirst⟩
  · exfalso
    cases palette with
    | nil => exact hne rfl
    | cons p t =>
      have h1 := hall p (List.mem_cons_self _ _)
      have h2 := colorSquareDistance_lt_floatMax color p
      omega
  · exact ⟨i, h, by simp [findClosestColor, heq], hmin, hfirst⟩

theorem findClosestColor_mem (color : Color) (palette : Palette) (hne : palette ≠ []) :
    findClosestColor color palette ∈ palette := by
  obtain ⟨i, h, heq, _, _⟩ := findClosestColor_spec color palette hne
  rw [heq]
  exact List.getElem_mem _

theorem findClosestColor_nil (color : Color) : findClosestColor color [] = color := rfl

theorem findClosestColor_mem_or (color : Color) (palette : Palette) :
    findClosestColor color palette = color ∨ findClosestColor color palette ∈ palette := by
  cases palette with
  | nil => left; rfl
  | cons p t => right; exact findClosestColor_mem color _ (by simp)

/-! ## The byte-level loop refines the pixel-level traversal -/

theorem getPixel_append (pre rest : ImageData) (r g b a : Nat) :
    getPixel (pre ++ r :: g :: b :: a :: rest) pre.length
      = some (r <<< 24 ||| g <<< 16 ||| b <<< 8 ||| a) := by
  unfold getPixel
  rw [List.getElem?_append_right (Nat.le_refl _),
    List.getElem?_append_right (Nat.le_add_right _ _),
    List.getElem?_append_right (Nat.le_add_right _ _),
    List.getElem?_append_right (Nat.le_add_right _ _)]
  simp

theorem setPixel_append (pre rest : ImageData) (r g b a : Nat) (c : Color) :
    setPixel (pre ++ r :: g :: b :: a :: rest) pre.length c
      = pre ++ red c :: green c :: blue c :: alpha c :: rest := by
  unfold setPixel
  rw [List.set_append_right _ _ (Nat.le_refl _)]
  rw [List.set_append_right _ _ (Nat.le_add_right _ _)]
  rw [List.set_append_right _ _ (Nat.le_add_right _ _)]
  rw [List.set_append_right _ _ (Nat.le_add_right _ _)]
  simp

theorem append_four (pre rest : ImageData) (r g b a : Nat) :
    pre ++ r :: g :: b :: a :: rest = (pre ++ [r, g, b, a]) ++ rest := by simp

/-- On a buffer whose remaining part has `4 * n` bytes the loop finishes and writes the
colours the pixel-level traversal computes. -/
theorem replaceLoop_spec {σ : Type} (palette : Palette) (onMiss onHit : Color → σ → σ) :
    ∀ (n : Nat) (bytes : ImageData), bytes.length = 4 * n →
    ∀ (pre : ImageData) (fuel : Nat) (colorMap : ColorMap) (st : σ), n < fuel →
      replaceLoop palette onMiss onHit fuel pre.length (pre ++ bytes) colorMap st
        = .ok (pre ++ encodePixels
                (quantizePixels palette onMiss onHit (chunkPixels bytes) colorMap st).1,
              (quantizePixels palette onMiss onHit (chunkPixels bytes) colorMap st).2) := by
  intro n
  induction n with
  | zero =>
    intro bytes hlen pre fuel colorMap st hfuel
    have hb : bytes = [] := List.length_eq_zero.1 (by omega)
    subst hb
    obtain ⟨fuel, rfl⟩ : ∃ f, fuel = f + 1 := ⟨fuel - 1, by omega⟩
    simp [replaceLoop, chunkPixels, quantizePixels, encodePixels]
  | succ n ih =>
    intro bytes hlen pre fuel colorMap st hfuel
    obtain ⟨fuel, rfl⟩ : ∃ f, fuel = f + 1 := ⟨fuel - 1, by omega⟩
    match bytes, hlen with
    | r :: g :: b :: a :: rest, hlen =>
      have hrest : rest.length = 4 * n := by simp at hlen; omega
      have hne : ¬ pre.length = (pre ++ r :: g :: b :: a :: rest).length := by simp
      rw [replaceLoop, if_neg hne, getPixel_append]
      simp only [chunkPixels, quantizePixels]
      cases hlk : List.lookup (r <<< 24 ||| g <<< 16 ||| b <<< 8 ||| a) colorMap with
      | none =>
        simp only [setPixel_append]
        have hpre : pre.length + PixelSize = (pre ++ [red (findClosestColor (r <<< 24 ||| g <<< 16 ||| b <<< 8 ||| a) palette), green (findClosestColor (r <<< 24 ||| g <<< 16 ||| b <<< 8 ||| a) palette), blue (findClosestColor (r <<< 24 ||| g <<< 16 ||| b <<< 8 ||| a) palette), alpha (findClosestColor (r <<< 24 ||| g <<< 16 ||| b <<< 8 ||| a) palette)]).length := by
          simp [PixelSize]
        rw [append_four, hpre, ih rest hrest _ fuel _ _ (by omega)]
        simp [encodePixels]
      | some q =>
        simp only [setPixel_append]
        have hpre : pre.length + PixelSize = (pre ++ [red q, green q, blue q, alpha q]).length := by
          simp [PixelSize]
        rw [append_four, hpre, ih rest hrest _ fuel _ _ (by omega)]
        simp [encodePixels]
    | [], hlen => simp at hlen
    | [_], hlen => simp at hlen; omega
    | [_, _], hlen => simp at hlen; omega
    | [_, _, _], hlen => simp at hlen; omega

/-! ## Pixel-level view: decoding and encoding -/

theorem getPixel_cons (x : Nat) (l : ImageData) (it : Nat) :
    getPixel (x :: l) (it + 1) = getPixel l it := by
  unfold getPixel
  have h1 : it + 1 + 1 = (it + 1) + 1 := rfl
  have h2 : it + 1 + 2 = (it + 2) + 1 := by omega
  have h3 : it + 1 + 3 = (it + 3) + 1 := by omega
  rw [h2, h3, List.getElem?_cons_succ, List.getElem?_cons_succ, List.getElem?_cons_succ,
    List.getElem?_cons_succ]

theorem getPixel_cons_four (r g b a : Nat) (l : ImageData) (it : Nat) :
    getPixel (r :: g :: b :: a :: l) (it + 4) = getPixel l it := by
  have h : it + 4 = it + 1 + 1 + 1 + 1 := by omega
  rw [h, getPixel_cons, getPixel_cons, getPixel_cons, getPixel_cons]

theorem pixelsOf_cons_four (r g b a : Nat) (rest : ImageData) :
    pixelsOf (r :: g :: b :: a :: rest)
      = (r <<< 24 ||| g <<< 16 ||| b <<< 8 ||| a) :: pixelsOf rest := by
  unfold pixelsOf
  have hlen : (r :: g :: b :: a :: rest).length / PixelSize = rest.length / PixelSize + 1 := by
    simp only [List.length_cons, PixelSize]; omega
  have h0 : (fun i => getPixel (r :: g :: b :: a :: rest) (i * PixelSize)) 0
      = some (r <<< 24 ||| g <<< 16 ||| b <<< 8 ||| a) := by
    simp [getPixel]
  rw [hlen, List.range_succ_eq_map,
    List.filterMap_cons_some (f := fun i => getPixel (r :: g :: b :: a :: rest) (i * PixelSize))
      h0, List.filterMap_map]
  congr 1
  apply List.filterMap_congr
  intro i _
  simp only [Function.comp, PixelSize, Nat.succ_eq_add_one, Nat.add_mul, Nat.one_mul]
  exact getPixel_cons_four r g b a rest (i * 4)

theorem pixelsOf_eq_chunkPixels (image : ImageData) : pixelsOf image = chunkPixels image := by
  induction image using chunkPixels.induct with
  | case1 r g b a rest ih => rw [pixelsOf_cons_four, chunkPixels, ih]
  | case2 x hx =>
    have hlen : x.length / PixelSize = 0 := by
      match x, hx with
      | [], _ => simp [PixelSize]
      | [_], _ => simp [PixelSize]
      | [_, _], _ => simp [PixelSize]
      | [_, _, _], _ => simp [PixelSize]
      | r :: g :: b :: a :: rest, hx => exact absurd rfl (hx r g b a rest)
    rw [chunkPixels]
    · simp [pixelsOf, hlen]
    · exact hx

theorem chunkPixels_encodePixels (cs : List Color) :
    chunkPixels (encodePixels cs) = cs.map (fun c => c % 2 ^ 32) := by
  induction cs with
  | nil => rfl
  | cons c cs ih => simp only [encodePixels, chunkPixels, ih, List.map_cons, pack_channels_mod]

theorem length_encodePixels (cs : List Color) : (encodePixels cs).length = 4 * cs.length := by
  induction cs with
  | nil => rfl
  | cons c cs ih => simp only [encodePixels, List.length_cons, ih]; omega

theorem length_chunkPixels (image : ImageData) :
    (chunkPixels image).length = image.length / 4 := by
  induction image using chunkPixels.induct with
  | case1 r g b a rest ih =>
    simp only [chunkPixels, List.length_cons, ih]; omega
  | case2 x hx =>
    rw [chunkPixels]
    · match x, hx with
      | [], _ => simp
      | [_], _ => simp
      | [_, _], _ => simp
      | [_, _, _], _ => simp
      | r :: g :: b :: a :: rest, hx => exact absurd rfl (hx r g b a rest)
    · exact hx

/-- A buffer of bytes whose length is a multiple of 4 is the encoding of its pixels. -/
theorem encodePixels_chunkPixels (image : ImageData) (hlen : image.length % 4 = 0)
    (hbytes : ∀ x ∈ image, x < 256) : encodePixels (chunkPixels image) = image := by
  induction image using chunkPixels.induct with
  | case1 r g b a rest ih =>
    have hr : r < 256 := hbytes r (by simp)
    have hg : g < 256 := hbytes g (by simp)
    have hb : b < 256 := hbytes b (by simp)
    have ha : a < 256 := hbytes a (by simp)
    simp only [chunkPixels, encodePixels, red_pack r g b a hr hg hb ha,
      green_pack r g b a hg hb ha, blue_pack r g b a hg hb ha, alpha_pack r g b a hg hb ha]
    rw [ih (by simp only [List.length_cons] at hlen; omega)
      (fun x hx => hbytes x (by simp [hx]))]
  | case2 x hx =>
    match x, hx, hlen with
    | [], _, _ => rfl
    | [_], _, hlen => simp at hlen
    | [_, _], _, hlen => simp at hlen
    | [_, _, _], _, hlen => simp at hlen
    | r :: g :: b :: a :: rest, hx, _ => exact absurd rfl (hx r g b a rest)

theorem chunkPixels_lt (image : ImageData) (hbytes : ∀ x ∈ image, x < 256) :
    ∀ c ∈ chunkPixels image, c < 2 ^ 32 := by
  induction image using chunkPixels.induct with
  | case1 r g b a rest ih =>
    intro c hc
    simp only [chunkPixels, List.mem_cons] at hc
    rcases hc with rfl | hc
    · exact pack_lt r g b a (hbytes r (by simp)) (hbytes g (by simp)) (hbytes b (by simp))
        (hbytes a (by simp))
    · exact ih (fun x hx => hbytes x (by simp [hx])) c hc
  | case2 x hx =>
    intro c hc
    rw [chunkPixels] at hc
    · simp at hc
    · exact hx

/-! ## Pixel-level traversal -/

theorem length_quantizePixels {σ : Type} (palette : Palette) (onMiss onHit : Color → σ → σ)
    (cs : List Color) : ∀ (colorMap : ColorMap) (st : σ),
    (quantizePixels palette onMiss onHit cs colorMap st).1.length = cs.length := by
  induction cs with
  | nil => intro _ _; rfl
  | cons c cs ih =>
    intro colorMap st
    simp only [quantizePixels]
    cases List.lookup c colorMap <;> simp [ih]

theorem cacheSound_nil (palette : Palette) : CacheSound palette [] := by
  intro k v h
  simp at h

theorem cacheSound_cons (palette : Palette) (colorMap : ColorMap) (c : Color)
    (h : CacheSound palette colorMap) :
    CacheSound palette ((c, findClosestColor c palette) :: colorMap) := by
  intro k v hk
  rw [List.lookup_cons] at hk
  by_cases hkc : k = c
  · subst hkc; simp at hk; exact hk.symm
  · have : (k == c) = false := by simpa using hkc
    rw [this] at hk
    exact h k v hk

/-- With a sound cache the traversal replaces every colour by its nearest palette colour:
the cache does not change the result. -/
theorem quantizePixels_fst {σ : Type} (palette : Palette) (onMiss onHit : Color → σ → σ)
    (cs : List Color) : ∀ (colorMap : ColorMap) (st : σ), CacheSound palette colorMap →
    (quantizePixels palette onMiss onHit cs colorMap st).1
      = cs.map (fun c => findClosestColor c palette) := by
  induction cs with
  | nil => intro _ _ _; rfl
  | cons c cs ih =>
    intro colorMap st hs
    simp only [quantizePixels]
    cases hlk : List.lookup c colorMap with
    | none =>
      simp only [List.map_cons]
      rw [ih _ _ (cacheSound_cons palette colorMap c hs)]
    | some q =>
      simp only [List.map_cons]
      rw [ih _ _ hs, hs c q hlk]

/-- The lambda on a buffer whose length is a multiple of 4: it returns, and the new
buffer and callback state are those of the pixel-level traversal. -/
theorem replaceColorsByClosestOne_eq {σ : Type} (image : ImageData) (palette : Palette)
    (onMiss onHit : Color → σ → σ) (init : σ) (hlen : image.length % 4 = 0) :
    replaceColorsByClosestOne image palette onMiss onHit init
      = .ok (encodePixels ((chunkPixels image).map (fun c => findClosestColor c palette)),
          (quantizePixels palette onMiss onHit (chunkPixels image) [] init).2) := by
  have h := replaceLoop_spec palette onMiss onHit (image.length / 4) image (by omega) []
    (image.length + 1) [] init (by omega)
  simp only [List.length_nil, List.nil_append] at h
  rw [replaceColorsByClosestOne, h, quantizePixels_fst _ _ _ _ _ _ (cacheSound_nil palette)]

/-! ## Reading pixels of an encoded buffer -/

theorem getPixel_encodePixels (cs : List Color) : ∀ (i : Nat) (h : i < cs.length),
    getPixel (encodePixels cs) (i * PixelSize) = some (cs[i] % 2 ^ 32) := by
  induction cs with
  | nil => intro i h; simp at h
  | cons c cs ih =>
    intro i h
    cases i with
    | zero =>
      simp only [encodePixels, Nat.zero_mul, List.getElem_cons_zero]
      have := getPixel_append [] (encodePixels cs) (red c) (green c) (blue c) (alpha c)
      simp only [List.nil_append, List.length_nil] at this
      rw [this, pack_channels_mod]
    | succ i =>
      have hi : i < cs.length := by simpa using h
      have e : (i + 1) * PixelSize = i * PixelSize + 4 := by simp [PixelSize, Nat.add_mul]
      rw [encodePixels, e, getPixel_cons_four, ih i hi]
      simp

/-! ## Histogram operations -/

theorem histogramAssign_ne_nil (h : Histogram) (c : Color) (v : Nat) :
    histogramAssign h c v ≠ [] := by
  cases h with
  | nil => simp [histogramAssign]
  | cons p t =>
    obtain ⟨k, w⟩ := p
    simp only [histogramAssign]
    split_ifs <;> simp

theorem histogramIncrement_ne_nil (h : Histogram) (c : Color) :
    histogramIncrement h c ≠ [] := by
  cases h with
  | nil => simp [histogramIncrement]
  | cons p t =>
    obtain ⟨k, w⟩ := p
    simp only [histogramIncrement]
    split_ifs <;> simp

/-- A property every callback establishes holds of the final state of a traversal of at
least one pixel. -/
theorem quantizePixels_snd_of_forall {σ : Type} (palette : Palette)
    (onMiss onHit : Color → σ → σ) (P : σ → Prop) (hmiss : ∀ c s, P (onMiss c s))
    (hhit : ∀ c s, P (onHit c s)) (cs : List Color) :
    ∀ (colorMap : ColorMap) (st : σ), (cs ≠ [] ∨ P st) →
      P (quantizePixels palette onMiss onHit cs colorMap st).2 := by
  induction cs with
  | nil =>
    intro colorMap st h
    rcases h with h | h
    · exact absurd rfl h
    · exact h
  | cons c cs ih =>
    intro colorMap st _
    simp only [quantizePixels]
    cases List.lookup c colorMap with
    | none => exact ih _ _ (Or.inr (hmiss _ _))
    | some q => exact ih _ _ (Or.inr (hhit _ _))

theorem convertImageToPaletteAndGetHistogram_eq (image : ImageData) (palette : Palette)
    (hlen : image.length % 4 = 0) :
    convertImageToPaletteAndGetHistogram image palette
      = .ok (encodePixels ((chunkPixels image).map (fun c => findClosestColor c palette)),
          (quantizePixels palette (fun color histogram => histogramAssign histogram color 1)
            (fun color histogram => histogramIncrement histogram color)
            (chunkPixels image) [] ([] : Histogram)).2) :=
  replaceColorsByClosestOne_eq image palette _ _ _ hlen

/-! ## Reduced palette -/

theorem reducedPalette_eq_take (stdSort : List ColorFrequency → List ColorFrequency)
    (histogram : Histogram) (K : Nat) :
    reducedPalette stdSort histogram K
      = ((stdSort (histogram.map (fun pair => ColorFrequency.mk pair.1 pair.2))).take K).map
          (fun v => v.color) := by
  unfold reducedPalette truncatedFrequencies
  simp only
  split_ifs with h
  · rfl
  · rw [List.take_of_length_le (by omega)]

theorem truncatedFrequencies_eq_take (stdSort : List ColorFrequency → List ColorFrequency)
    (histogram : Histogram) (K : Nat) :
    truncatedFrequencies stdSort histogram K
      = (stdSort (histogram.map (fun pair => ColorFrequency.mk pair.1 pair.2))).take K := by
  unfold truncatedFrequencies
  simp only
  split_ifs with h
  · rfl
  · rw [List.take_of_length_le (by omega)]

theorem length_reducedPalette (stdSort : List ColorFrequency → List ColorFrequency)
    (hsort : StdSortContract stdSort) (histogram : Histogram) (K : Nat) :
    (reducedPalette stdSort histogram K).length = min K histogram.length := by
  rw [reducedPalette_eq_take, List.length_map, List.length_take, (hsort _).1.length_eq,
    List.length_map]

theorem map_color_stdSort (stdSort : List ColorFrequency → List ColorFrequency)
    (hsort : StdSortContract stdSort) (histogram : Histogram) :
    ((stdSort (histogram.map (fun pair => ColorFrequency.mk pair.1 pair.2))).map
      (fun v => v.color)).Perm (histogram.map Prod.fst) := by
  have h := ((hsort (histogram.map (fun pair => ColorFrequency.mk pair.1 pair.2))).1).map
    (fun v => v.color)
  simpa [List.map_map, Function.comp] using h

theorem reduceColors_eq (stdSort : List ColorFrequency → List ColorFrequency)
    (image : ImageData) (histogram : Histogram) (K : Nat) (hlen : image.length % 4 = 0) :
    reduceColors stdSort image histogram K
      = .ok (encodePixels ((chunkPixels image).map
          (fun c => findClosestColor c (reducedPalette stdSort histogram K)))) := by
  unfold reduceColors
  rw [replaceColorsByClosestOne_eq image _ _ _ _ hlen]
  rfl

/-! ## The reference sort meets the contract -/

theorem insertByCount_perm (v : ColorFrequency) (l : List ColorFrequency) :
    (insertByCount v l).Perm (v :: l) := by
  induction l with
  | nil => exact List.Perm.refl _
  | cons w rest ih =>
    simp only [insertByCount]
    split_ifs
    · exact List.Perm.refl _
    · exact ((List.Perm.cons w ih).trans (List.Perm.swap v w rest))

theorem insertByCount_sorted (v : ColorFrequency) (l : List ColorFrequency)
    (hl : l.Pairwise (fun v1 v2 => ¬ v2.count > v1.count)) :
    (insertByCount v l).Pairwise (fun v1 v2 => ¬ v2.count > v1.count) := by
  induction l with
  | nil => simp [insertByCount]
  | cons w rest ih =>
    rw [List.pairwise_cons] at hl
    simp only [insertByCount]
    split_ifs with hwv
    · refine List.pairwise_cons.2 ⟨?_, List.pairwise_cons.2 hl⟩
      intro x hx
      rcases List.mem_cons.1 hx with rfl | hx
      · omega
      · have := hl.1 x hx
        omega
    · refine List.pairwise_cons.2 ⟨?_, ih hl.2⟩
      intro x hx
      rcases List.mem_cons.1 ((insertByCount_perm v rest).subset hx) with rfl | hx
      · omega
      · exact hl.1 x hx

theorem sortByCount_contract : StdSortContract sortByCount := by
  intro l
  induction l with
  | nil => exact ⟨List.Perm.refl _, List.Pairwise.nil⟩
  | cons v rest ih =>
    simp only [sortByCount]
    exact ⟨(insertByCount_perm v _).trans (List.Perm.cons v ih.1),
      insertByCount_sorted v _ ih.2⟩

theorem lookup_of_mem_of_nodup_keys (histogram : Histogram) (c : Color) (n : Nat)
    (hkeys : (histogram.map Prod.fst).Nodup) (hmem : (c, n) ∈ histogram) :
    histogram.lookup c = some n := by
  induction histogram with
  | nil => simp at hmem
  | cons p t ih =>
    obtain ⟨k, w⟩ := p
    simp only [List.map_cons, List.nodup_cons] at hkeys
    rcases List.mem_cons.1 hmem with heq | htail
    · cases heq
      simp [List.lookup_cons]
    · have hne : c ≠ k := by
        intro hck
        exact hkeys.1 (List.mem_map.2 ⟨(c, n), htail, hck⟩)
      have hb : (c == k) = false := by simpa using hne
      rw [List.lookup_cons, hb]
      exact ih hkeys.2 htail

theorem histogramCount_of_mem (histogram : Histogram) (c : Color) (n : Nat)
    (hkeys : (histogram.map Prod.fst).Nodup) (hmem : (c, n) ∈ histogram) :
    histogramCount histogram c = n := by
  rw [histogramCount, lookup_of_mem_of_nodup_keys histogram c n hkeys hmem]
  rfl

theorem mem_histogram_of_mem_stdSort (stdSort : List ColorFrequency → List ColorFrequency)
    (hsort : StdSortContract stdSort) (histogram : Histogram) (v : ColorFrequency)
    (hv : v ∈ stdSort (histogram.map (fun pair => ColorFrequency.mk pair.1 pair.2))) :
    (v.color, v.count) ∈ histogram := by
  have h := (hsort _).1.subset hv
  obtain ⟨p, hp, rfl⟩ := List.mem_map.1 h
  exact hp

/-! ## Claims -/

/-- C1: for a buffer whose length is a multiple of 4, any palette and any maximum
`K ≥ 1`, `convertImageToPaletteAndGetHistogram` followed by `reduceColors` returns, and
the resulting image has at most `K` distinct pixel colours. -/
theorem pipeline_distinct_colors_le (image : ImageData) (palette : Palette) (K : Nat)
    (stdSort : List ColorFrequency → List ColorFrequency)
    (hlen : image.length % 4 = 0) (hK : 1 ≤ K) (hsort : StdSortContract stdSort) :
    ∃ image1 histogram image2,
      convertImageToPaletteAndGetHistogram image palette = .ok (image1, histogram) ∧
      reduceColors stdSort image1 histogram K = .ok image2 ∧
      (pixelsOf image2).dedup.length ≤ K := by
  have hlen1 : (encodePixels ((chunkPixels image).map
      (fun c => findClosestColor c palette))).length % 4 = 0 := by
    rw [length_encodePixels]; omega
  refine ⟨_, _, _, convertImageToPaletteAndGetHistogram_eq image palette hlen,
    reduceColors_eq stdSort _ _ K hlen1, ?_⟩
  rw [pixelsOf_eq_chunkPixels, chunkPixels_encodePixels, chunkPixels_encodePixels]
  by_cases hps : chunkPixels image = []
  · simp [hps]
  · have hH : (quantizePixels palette (fun color histogram => histogramAssign histogram color 1)
        (fun color histogram => histogramIncrement histogram color)
        (chunkPixels image) [] ([] : Histogram)).2 ≠ [] :=
      quantizePixels_snd_of_forall palette _ _ (fun h => h ≠ [])
        (fun c s => histogramAssign_ne_nil s c 1) (fun c s => histogramIncrement_ne_nil s c)
        (chunkPixels image) [] [] (Or.inl hps)
    generalize (quantizePixels palette (fun color histogram => histogramAssign histogram color 1)
        (fun color histogram => histogramIncrement histogram color)
        (chunkPixels image) [] ([] : Histogram)).2 = H at hH ⊢
    have hRlen := length_reducedPalette stdSort hsort H K
    have hRne : reducedPalette stdSort H K ≠ [] := by
      intro h0
      rw [h0, List.length_nil] at hRlen
      have : 0 < H.length := List.length_pos.2 hH
      omega
    have hsub : (List.map (fun c => c % 2 ^ 32)
        (List.map (fun c => findClosestColor c (reducedPalette stdSort H K))
          (List.map (fun c => c % 2 ^ 32)
            (List.map (fun c => findClosestColor c palette) (chunkPixels image))))).dedup
        ⊆ (reducedPalette stdSort H K).map (fun c => c % 2 ^ 32) := by
      intro x hx
      rw [List.mem_dedup] at hx
      obtain ⟨y, hy, rfl⟩ := List.mem_map.1 hx
      obtain ⟨z, _, rfl⟩ := List.mem_map.1 hy
      exact List.mem_map.2 ⟨_, findClosestColor_mem z _ hRne, rfl⟩
    have hle := ((List.nodup_dedup _).subperm hsub).length_le
    rw [List.length_map, hRlen] at hle
    omega

/-- C1 at a concrete input: three pixels, a two-colour palette, `K = 1`. -/
theorem pipeline_distinct_colors_le_witness :
    ([255, 0, 0, 255, 0, 255, 0, 255, 0, 0, 255, 255] : ImageData).length % 4 = 0 ∧
    1 ≤ 1 ∧ StdSortContract sortByCount ∧
    ∃ image1 histogram image2,
      convertImageToPaletteAndGetHistogram
        [255, 0, 0, 255, 0, 255, 0, 255, 0, 0, 255, 255] [0xFF0000FF, 0x00FF00FF]
        = .ok (image1, histogram) ∧
      reduceColors sortByCount image1 histogram 1 = .ok image2 ∧
      (pixelsOf image2).dedup.length ≤ 1 :=
  ⟨by decide, by decide, sortByCount_contract,
    pipeline_distinct_colors_le _ _ 1 sortByCount (by decide) (by decide) sortByCount_contract⟩

/-- C2: palette membership. For a non-empty palette of 32-bit colours and a buffer whose
length is a multiple of 4, `replaceColorsByClosestOne` returns a buffer of the same length
in which every pixel, read with `getPixel`, is an element of the palette. -/
theorem replaceColorsByClosestOne_palette_membership {σ : Type} (image : ImageData)
    (palette : Palette) (onColorCacheMiss onColorCacheHit : Color → σ → σ) (init : σ)
    (hlen : image.length % 4 = 0) (hne : palette ≠ []) (hpal : ∀ p ∈ palette, p < 2 ^ 32) :
    ∃ image1 st,
      replaceColorsByClosestOne image palette onColorCacheMiss onColorCacheHit init
        = .ok (image1, st) ∧
      image1.length = image.length ∧
      ∀ i, i < image1.length / PixelSize →
        ∃ c, getPixel image1 (i * PixelSize) = some c ∧ c ∈ palette := by
  refine ⟨_, _, replaceColorsByClosestOne_eq image palette _ _ init hlen, ?_, ?_⟩
  · rw [length_encodePixels, List.length_map, length_chunkPixels]; omega
  · intro i hi
    rw [length_encodePixels, List.length_map] at hi
    have hi2 : i < ((chunkPixels image).map (fun c => findClosestColor c palette)).length := by
      rw [List.length_map]; simp only [PixelSize] at hi; omega
    have hi3 : i < (chunkPixels image).length := by simpa using hi2
    refine ⟨_, getPixel_encodePixels _ i hi2, ?_⟩
    rw [List.getElem_map]
    have hm := findClosestColor_mem (chunkPixels image)[i] palette hne
    rw [Nat.mod_eq_of_lt (hpal _ hm)]
    exact hm

/-- C2 at a concrete input: two pixels against a two-colour palette. -/
theorem replaceColorsByClosestOne_palette_membership_witness :
    ([1, 2, 3, 255, 200, 100, 0, 255] : ImageData).length % 4 = 0 ∧
    ([0x000000FF, 0xFFFFFFFF] : Palette) ≠ [] ∧
    (∀ p ∈ ([0x000000FF, 0xFFFFFFFF] : Palette), p < 2 ^ 32) ∧
    ∃ image1 st,
      replaceColorsByClosestOne [1, 2, 3, 255, 200, 100, 0, 255] [0x000000FF, 0xFFFFFFFF]
        (fun _ (u : Unit) => u) (fun _ (u : Unit) => u) () = .ok (image1, st) ∧
      image1.length = ([1, 2, 3, 255, 200, 100, 0, 255] : ImageData).length ∧
      ∀ i, i < image1.length / PixelSize →
        ∃ c, getPixel image1 (i * PixelSize) = some c ∧
          c ∈ ([0x000000FF, 0xFFFFFFFF] : Palette) :=
  ⟨by decide, by decide, by decide,
    replaceColorsByClosestOne_palette_membership _ _ _ _ () (by decide) (by decide)
      (by decide)⟩

/-- C3 (failing input): two pixels of different colours that both resolve to the single
palette colour. The second cache miss assigns `1` again, so the histogram values sum to
`1` although the buffer has `2` pixels. -/
theorem histogram_sum_undercounts :
    ∃ image1 histogram,
      convertImageToPaletteAndGetHistogram [0, 0, 0, 255, 1, 0, 0, 255] [0x000000FF]
        = .ok (image1, histogram) ∧
      (histogram.map Prod.snd).sum = 1 ∧
      ([0, 0, 0, 255, 1, 0, 0, 255] : ImageData).length / PixelSize = 2 :=
  ⟨[0, 0, 0, 255, 0, 0, 0, 255], [(0x000000FF, 1)], by rfl, by decide, by decide⟩

/-- C4 (failing input): three pixels `A, A, B` that all resolve to the palette colour
`0x000000FF`. The quantized image holds that colour three times, the histogram maps it
to `1`. -/
theorem histogram_count_differs_from_frequency :
    ∃ image1 histogram,
      convertImageToPaletteAndGetHistogram
        [0, 0, 0, 255, 0, 0, 0, 255, 1, 0, 0, 255] [0x000000FF] = .ok (image1, histogram) ∧
      histogram.lookup 0x000000FF = some 1 ∧
      (pixelsOf image1).count 0x000000FF = 3 :=
  ⟨[0, 0, 0, 255, 0, 0, 0, 255, 0, 0, 0, 255], [(0x000000FF, 1)], by rfl, by decide,
    by decide⟩

/-- C5 (failing input): against the palette `[(0,0,0,200), (0,0,0,0)]` the pixel
`(0,0,0,0)` becomes `(0,0,0,200)` in a first run, and a second run against the same
palette turns it into `(0,0,0,0)` again: `findClosestColor` returns `(0,0,0,200)` and
does not map it to itself. -/
theorem requantization_changes_pixel :
    replaceColorsByClosestOne [0, 0, 0, 0] [0x000000C8, 0x00000000]
        (fun _ (u : Unit) => u) (fun _ (u : Unit) => u) () = .ok ([0, 0, 0, 200], ()) ∧
    replaceColorsByClosestOne [0, 0, 0, 200] [0x000000C8, 0x00000000]
        (fun _ (u : Unit) => u) (fun _ (u : Unit) => u) () = .ok ([0, 0, 0, 0], ()) ∧
    findClosestColor 0x00000000 [0x000000C8, 0x00000000] = 0x000000C8 ∧
    findClosestColor 0x000000C8 [0x000000C8, 0x00000000] = 0x00000000 ∧
    colorSquareDistance 0x000000C8 0x000000C8 = 1600000000 ∧
    colorSquareDistance 0x000000C8 0x00000000 = 0 :=
  ⟨by rfl, by rfl, by decide, by decide, by decide, by decide⟩

/-- C6 (failing input): for `A = C = (10,20,30,255)` the product `65025 * 65025` does not
fit a 32-bit `int`; the value computed is `-66716671`, not `(255 * 255) ^ 2 = 4228250625`,
and the `float` returned is `-66716672`. -/
theorem colorSquareDistance_overflows :
    colorSquareDistanceInt 0x0A141EFF 0x0A141EFF = -66716671 ∧
    colorSquareDistanceInt 0x0A141EFF 0x0A141EFF ≠ (255 * 255) ^ 2 ∧
    ((255 * 255) ^ 2 : Int) = 4228250625 ∧
    colorSquareDistance 0x0A141EFF 0x0A141EFF = -66716672 :=
  ⟨by decide, by decide, by decide, by decide⟩

/-- C7: on a non-empty palette `findClosestColor` returns the entry `palette[i]` at the
smallest index `i` whose distance to the colour is at most that of every entry. -/
theorem findClosestColor_first_minimum (color : Color) (palette : Palette)
    (hne : palette ≠ []) :
    ∃ (i : Nat) (h : i < palette.length),
      findClosestColor color palette = palette[i] ∧
      (∀ (j : Nat) (hj : j < palette.length),
        colorSquareDistance color palette[i] ≤ colorSquareDistance color palette[j]) ∧
      ∀ (k : Nat) (hk : k < i),
        ¬ ∀ (j : Nat) (hj : j < palette.length),
          colorSquareDistance color palette[k] ≤ colorSquareDistance color palette[j] := by
  obtain ⟨i, h, heq, hmin, hfirst⟩ := findClosestColor_spec color palette hne
  refine ⟨i, h, heq, hmin, ?_⟩
  intro k hk hall
  have h1 := hfirst k hk
  have h2 := hall i h
  omega

/-- C7 at a concrete input: two entries tie for the minimum, the first of them wins. -/
theorem findClosestColor_first_minimum_witness :
    ([0x0A0000FF, 0x000000FF, 0x020000FF] : Palette) ≠ [] ∧
    ∃ (i : Nat) (h : i < ([0x0A0000FF, 0x000000FF, 0x020000FF] : Palette).length),
      findClosestColor 0x010000FF [0x0A0000FF, 0x000000FF, 0x020000FF]
        = ([0x0A0000FF, 0x000000FF, 0x020000FF] : Palette)[i] ∧
      (∀ (j : Nat) (hj : j < ([0x0A0000FF, 0x000000FF, 0x020000FF] : Palette).length),
        colorSquareDistance 0x010000FF ([0x0A0000FF, 0x000000FF, 0x020000FF] : Palette)[i]
          ≤ colorSquareDistance 0x010000FF
              ([0x0A0000FF, 0x000000FF, 0x020000FF] : Palette)[j]) ∧
      ∀ (k : Nat) (hk : k < i),
        ¬ ∀ (j : Nat) (hj : j < ([0x0A0000FF, 0x000000FF, 0x020000FF] : Palette).length),
          colorSquareDistance 0x010000FF ([0x0A0000FF, 0x000000FF, 0x020000FF] : Palette)[k]
            ≤ colorSquareDistance 0x010000FF
                ([0x0A0000FF, 0x000000FF, 0x020000FF] : Palette)[j] :=
  ⟨by decide, findClosestColor_first_minimum 0x010000FF _ (by decide)⟩

/-- C8: bounded reduction. For a histogram with unique keys and any `K`, the reduced
palette has exactly `min K (number of keys)` entries, hence at most `K`, and its entries
are pairwise distinct keys of the histogram. -/
theorem reducedPalette_bounded (stdSort : List ColorFrequency → List ColorFrequency)
    (histogram : Histogram) (K : Nat) (hsort : StdSortContract stdSort)
    (hkeys : (histogram.map Prod.fst).Nodup) :
    (reducedPalette stdSort histogram K).length = min K (histogram.map Prod.fst).length ∧
    (reducedPalette stdSort histogram K).length ≤ K ∧
    (reducedPalette stdSort histogram K).Nodup ∧
    ∀ c ∈ reducedPalette stdSort histogram K, c ∈ histogram.map Prod.fst := by
  have hlenR := length_reducedPalette stdSort hsort histogram K
  have hperm := map_color_stdSort stdSort hsort histogram
  have hsubl : (reducedPalette stdSort histogram K).Sublist
      ((stdSort (histogram.map (fun pair => ColorFrequency.mk pair.1 pair.2))).map
        (fun v => v.color)) := by
    rw [reducedPalette_eq_take]
    exact (List.take_sublist _ _).map _
  refine ⟨by rw [hlenR, List.length_map], by rw [hlenR]; exact Nat.min_le_left _ _, ?_, ?_⟩
  · exact (hperm.nodup_iff.2 hkeys).sublist hsubl
  · intro c hc
    exact hperm.subset (hsubl.subset hc)

/-- C8 at a concrete input: three keys, `K = 2`. -/
theorem reducedPalette_bounded_witness :
    StdSortContract sortByCount ∧
    (([(0xFF0000FF, 2), (0x00FF00FF, 5), (0x0000FFFF, 1)] : Histogram).map Prod.fst).Nodup ∧
    (reducedPalette sortByCount [(0xFF0000FF, 2), (0x00FF00FF, 5), (0x0000FFFF, 1)] 2).length
      = min 2 (([(0xFF0000FF, 2), (0x00FF00FF, 5), (0x0000FFFF, 1)] : Histogram).map
          Prod.fst).length ∧
    (reducedPalette sortByCount [(0xFF0000FF, 2), (0x00FF00FF, 5), (0x0000FFFF, 1)] 2).length
      ≤ 2 ∧
    (reducedPalette sortByCount [(0xFF0000FF, 2), (0x00FF00FF, 5), (0x0000FFFF, 1)] 2).Nodup ∧
    ∀ c ∈ reducedPalette sortByCount [(0xFF0000FF, 2), (0x00FF00FF, 5), (0x0000FFFF, 1)] 2,
      c ∈ ([(0xFF0000FF, 2), (0x00FF00FF, 5), (0x0000FFFF, 1)] : Histogram).map Prod.fst :=
  ⟨sortByCount_contract, by decide,
    reducedPalette_bounded sortByCount _ 2 sortByCount_contract (by decide)⟩

/-- C9: top-K by frequency. For a histogram with unique keys, the reduced palette lists
its colours in non-increasing order of their counts in the histogram, and every colour
kept has a count at least that of every key left out. -/
theorem reducedPalette_top_frequencies (stdSort : List ColorFrequency → List ColorFrequency)
    (histogram : Histogram) (K : Nat) (hsort : StdSortContract stdSort)
    (hkeys : (histogram.map Prod.fst).Nodup) :
    (reducedPalette stdSort histogram K).Pairwise
        (fun c d => histogramCount histogram d ≤ histogramCount histogram c) ∧
    ∀ c ∈ reducedPalette stdSort histogram K, ∀ d ∈ histogram.map Prod.fst,
      d ∉ reducedPalette stdSort histogram K →
        histogramCount histogram d ≤ histogramCount histogram c := by
  have hcount : ∀ v ∈ stdSort (histogram.map (fun pair => ColorFrequency.mk pair.1 pair.2)),
      histogramCount histogram v.color = v.count := fun v hv =>
    histogramCount_of_mem histogram _ _ hkeys
      (mem_histogram_of_mem_stdSort stdSort hsort histogram v hv)
  have hpw := (hsort (histogram.map (fun pair => ColorFrequency.mk pair.1 pair.2))).2
  rw [reducedPalette_eq_take]
  constructor
  · rw [List.pairwise_map]
    refine (hpw.sublist (List.take_sublist K _)).imp_of_mem ?_
    intro a b ha hb hab
    rw [hcount a (List.mem_of_mem_take ha), hcount b (List.mem_of_mem_take hb)]
    omega
  · intro c hc d hd hdR
    obtain ⟨v, hv, rfl⟩ := List.mem_map.1 hc
    obtain ⟨p, hp, rfl⟩ := List.mem_map.1 hd
    have hw : ColorFrequency.mk p.1 p.2
        ∈ stdSort (histogram.map (fun pair => ColorFrequency.mk pair.1 pair.2)) :=
      (hsort _).1.symm.subset (List.mem_map.2 ⟨p, hp, rfl⟩)
    rw [← List.take_append_drop K
      (stdSort (histogram.map (fun pair => ColorFrequency.mk pair.1 pair.2)))] at hw hpw
    rcases List.mem_append.1 hw with hwt | hwd
    · exact absurd (List.mem_map.2 ⟨_, hwt, rfl⟩) hdR
    · have hrel := (List.pairwise_append.1 hpw).2.2 v hv _ hwd
      have h1 := hcount v (List.mem_of_mem_take hv)
      have h2 := hcount _ (List.mem_of_mem_drop hwd)
      simp only at h2 hrel
      rw [h1, h2]
      omega

/-- C9 at a concrete input: three keys, `K = 2`. -/
theorem reducedPalette_top_frequencies_witness :
    StdSortContract sortByCount ∧
    (([(0xFF0000FF, 2), (0x00FF00FF, 5), (0x0000FFFF, 1)] : Histogram).map Prod.fst).Nodup ∧
    (reducedPalette sortByCount [(0xFF0000FF, 2), (0x00FF00FF, 5), (0x0000FFFF, 1)] 2).Pairwise
        (fun c d =>
          histogramCount [(0xFF0000FF, 2), (0x00FF00FF, 5), (0x0000FFFF, 1)] d
            ≤ histogramCount [(0xFF0000FF, 2), (0x00FF00FF, 5), (0x0000FFFF, 1)] c) ∧
    ∀ c ∈ reducedPalette sortByCount [(0xFF0000FF, 2), (0x00FF00FF, 5), (0x0000FFFF, 1)] 2,
      ∀ d ∈ ([(0xFF0000FF, 2), (0x00FF00FF, 5), (0x0000FFFF, 1)] : Histogram).map Prod.fst,
        d ∉ reducedPalette sortByCount [(0xFF0000FF, 2), (0x00FF00FF, 5), (0x0000FFFF, 1)] 2 →
          histogramCount [(0xFF0000FF, 2), (0x00FF00FF, 5), (0x0000FFFF, 1)] d
            ≤ histogramCount [(0xFF0000FF, 2), (0x00FF00FF, 5), (0x0000FFFF, 1)] c :=
  ⟨sortByCount_contract, by decide,
    reducedPalette_top_frequencies sortByCount _ 2 sortByCount_contract (by decide)⟩

/-- C10 (failing input): the image `[(0,0,0,0), (0,0,0,200)]` against the palette
`[(0,0,0,200), (0,0,0,0)]` gives a histogram with two keys of count 1; `reduceColors` with
`K = 2` keeps both keys in the reduced palette and still changes a pixel, in either order
of the two tied entries. -/
theorem reduceColors_full_palette_changes_pixel :
    ∃ image1 histogram image2,
      convertImageToPaletteAndGetHistogram [0, 0, 0, 0, 0, 0, 0, 200]
        [0x000000C8, 0x00000000] = .ok (image1, histogram) ∧
      (histogram.map Prod.fst).length = 2 ∧
      (reducedPalette sortByCount histogram 2).Perm (histogram.map Prod.fst) ∧
      reduceColors sortByCount image1 histogram 2 = .ok image2 ∧
      pixelsOf image1 = [0x000000C8, 0x00000000] ∧
      pixelsOf image2 = [0x00000000, 0x00000000] ∧
      replaceColorsByClosestOne image1 [0x00000000, 0x000000C8]
        (fun _ (u : Unit) => u) (fun _ (u : Unit) => u) ()
          = .ok ([0, 0, 0, 0, 0, 0, 0, 0], ()) ∧
      replaceColorsByClosestOne image1 [0x000000C8, 0x00000000]
        (fun _ (u : Unit) => u) (fun _ (u : Unit) => u) ()
          = .ok ([0, 0, 0, 0, 0, 0, 0, 200], ()) :=
  ⟨[0, 0, 0, 200, 0, 0, 0, 0], [(0x000000C8, 1), (0x00000000, 1)], [0, 0, 0, 0, 0, 0, 0, 0],
    by rfl, by decide, by decide, by rfl, by decide, by decide, by rfl, by rfl⟩

/-! ## Scenario: three primaries, two colours kept -/

theorem perm_three {α : Type} (a b c : α) (l : List α) (h : l.Perm [a, b, c]) :
    l = [a, b, c] ∨ l = [b, a, c] ∨ l = [c, b, a] ∨ l = [b, c, a] ∨ l = [c, a, b] ∨
      l = [a, c, b] := by
  have hm := List.mem_permutations.2 h
  simpa [List.permutations, List.permutationsAux_cons, List.permutationsAux2] using hm

/-- The first pass of the scenario leaves the image as it is and counts red twice,
whatever the order of the three palette entries. -/
theorem scenario_first_pass (palette : Palette)
    (hpal : palette.Perm [0xFF0000FF, 0x00FF00FF, 0x0000FFFF]) :
    convertImageToPaletteAndGetHistogram
        [255, 0, 0, 255, 255, 0, 0, 255, 0, 255, 0, 255, 0, 0, 255, 255] palette
      = .ok ([255, 0, 0, 255, 255, 0, 0, 255, 0, 255, 0, 255, 0, 0, 255, 255],
          [(0xFF0000FF, 2), (0x00FF00FF, 1), (0x0000FFFF, 1)]) := by
  rcases perm_three _ _ _ palette hpal with h | h | h | h | h | h <;> subst h <;> rfl

/-- The two orders a sort meeting the contract can give the histogram of the scenario. -/
theorem scenario_sorted (stdSort : List ColorFrequency → List ColorFrequency)
    (hsort : StdSortContract stdSort) :
    stdSort [⟨0xFF0000FF, 2⟩, ⟨0x00FF00FF, 1⟩, ⟨0x0000FFFF, 1⟩]
        = [⟨0xFF0000FF, 2⟩, ⟨0x00FF00FF, 1⟩, ⟨0x0000FFFF, 1⟩] ∨
      stdSort [⟨0xFF0000FF, 2⟩, ⟨0x00FF00FF, 1⟩, ⟨0x0000FFFF, 1⟩]
        = [⟨0xFF0000FF, 2⟩, ⟨0x0000FFFF, 1⟩, ⟨0x00FF00FF, 1⟩] := by
  obtain ⟨hperm, hpw⟩ := hsort [⟨0xFF0000FF, 2⟩, ⟨0x00FF00FF, 1⟩, ⟨0x0000FFFF, 1⟩]
  rcases perm_three _ _ _ _ hperm with h | h | h | h | h | h
  · exact Or.inl h
  · rw [h] at hpw; exact absurd hpw (by decide)
  · rw [h] at hpw; exact absurd hpw (by decide)
  · rw [h] at hpw; exact absurd hpw (by decide)
  · rw [h] at hpw; exact absurd hpw (by decide)
  · exact Or.inr h

/-- C11 (counterexample): with the palette `[red, green, blue]` and the admissible sort
`sortByCount` the reduced palette is `[red, blue]` and the output is
`[red, red, red, blue]`: three red pixels and one blue pixel, not two and two. -/
theorem scenario_three_red_pixels :
    StdSortContract sortByCount ∧
    ∃ image1 histogram image2,
      convertImageToPaletteAndGetHistogram
          [255, 0, 0, 255, 255, 0, 0, 255, 0, 255, 0, 255, 0, 0, 255, 255]
          [0xFF0000FF, 0x00FF00FF, 0x0000FFFF] = .ok (image1, histogram) ∧
      reducedPalette sortByCount histogram 2 = [0xFF0000FF, 0x0000FFFF] ∧
      reduceColors sortByCount image1 histogram 2 = .ok image2 ∧
      pixelsOf image2 = [0xFF0000FF, 0xFF0000FF, 0xFF0000FF, 0x0000FFFF] ∧
      (pixelsOf image2).count 0xFF0000FF = 3 ∧
      (pixelsOf image2).count 0x0000FFFF = 1 ∧
      colorSquareDistance 0x00FF00FF 0xFF0000FF = colorSquareDistance 0x00FF00FF 0x0000FFFF :=
  ⟨sortByCount_contract,
    [255, 0, 0, 255, 255, 0, 0, 255, 0, 255, 0, 255, 0, 0, 255, 255],
    [(0xFF0000FF, 2), (0x00FF00FF, 1), (0x0000FFFF, 1)],
    [255, 0, 0, 255, 255, 0, 0, 255, 255, 0, 0, 255, 0, 0, 255, 255],
    by rfl, by decide, by rfl, by decide, by decide, by decide, by decide⟩

/-- C11 (amended): for every order of the palette `{red, green, blue}` and every order
the sort may leave the two counts of 1 in, the reduced palette is red followed by exactly
one of green and blue, and the output image holds three red pixels and one pixel of the
retained second colour: the pixel of the dropped colour is equally far from both
survivors and goes to red, the first entry. -/
theorem scenario_reduced_to_two (palette : Palette)
    (stdSort : List ColorFrequency → List ColorFrequency)
    (hpal : palette.Perm [0xFF0000FF, 0x00FF00FF, 0x0000FFFF])
    (hsort : StdSortContract stdSort) :
    ∃ image1 histogram image2,
      convertImageToPaletteAndGetHistogram
          [255, 0, 0, 255, 255, 0, 0, 255, 0, 255, 0, 255, 0, 0, 255, 255] palette
        = .ok (image1, histogram) ∧
      reduceColors stdSort image1 histogram 2 = .ok image2 ∧
      ((reducedPalette stdSort histogram 2 = [0xFF0000FF, 0x00FF00FF] ∧
          pixelsOf image2 = [0xFF0000FF, 0xFF0000FF, 0x00FF00FF, 0xFF0000FF]) ∨
        (reducedPalette stdSort histogram 2 = [0xFF0000FF, 0x0000FFFF] ∧
          pixelsOf image2 = [0xFF0000FF, 0xFF0000FF, 0xFF0000FF, 0x0000FFFF])) := by
  have hmap : List.map (fun pair : Color × Nat => ColorFrequency.mk pair.1 pair.2)
      [(0xFF0000FF, 2), (0x00FF00FF, 1), (0x0000FFFF, 1)]
      = [⟨0xFF0000FF, 2⟩, ⟨0x00FF00FF, 1⟩, ⟨0x0000FFFF, 1⟩] := rfl
  rcases scenario_sorted stdSort hsort with hs | hs
  · have hR : reducedPalette stdSort [(0xFF0000FF, 2), (0x00FF00FF, 1), (0x0000FFFF, 1)] 2
        = [0xFF0000FF, 0x00FF00FF] := by
      rw [reducedPalette_eq_take, hmap, hs]; rfl
    refine ⟨_, _, [255, 0, 0, 255, 255, 0, 0, 255, 0, 255, 0, 255, 255, 0, 0, 255],
      scenario_first_pass palette hpal, ?_, Or.inl ⟨hR, by decide⟩⟩
    rw [reduceColors, hR]; rfl
  · have hR : reducedPalette stdSort [(0xFF0000FF, 2), (0x00FF00FF, 1), (0x0000FFFF, 1)] 2
        = [0xFF0000FF, 0x0000FFFF] := by
      rw [reducedPalette_eq_take, hmap, hs]; rfl
    refine ⟨_, _, [255, 0, 0, 255, 255, 0, 0, 255, 255, 0, 0, 255, 0, 0, 255, 255],
      scenario_first_pass palette hpal, ?_, Or.inr ⟨hR, by decide⟩⟩
    rw [reduceColors, hR]; rfl

/-- C11 (amended) at a concrete input: the palette in the order blue, red, green. -/
theorem scenario_reduced_to_two_witness :
    ([0x0000FFFF, 0xFF0000FF, 0x00FF00FF] : Palette).Perm
        [0xFF0000FF, 0x00FF00FF, 0x0000FFFF] ∧
    StdSortContract sortByCount ∧
    ∃ image1 histogram image2,
      convertImageToPaletteAndGetHistogram
          [255, 0, 0, 255, 255, 0, 0, 255, 0, 255, 0, 255, 0, 0, 255, 255]
          [0x0000FFFF, 0xFF0000FF, 0x00FF00FF] = .ok (image1, histogram) ∧
      reduceColors sortByCount image1 histogram 2 = .ok image2 ∧
      ((reducedPalette sortByCount histogram 2 = [0xFF0000FF, 0x00FF00FF] ∧
          pixelsOf image2 = [0xFF0000FF, 0xFF0000FF, 0x00FF00FF, 0xFF0000FF]) ∨
        (reducedPalette sortByCount histogram 2 = [0xFF0000FF, 0x0000FFFF] ∧
          pixelsOf image2 = [0xFF0000FF, 0xFF0000FF, 0xFF0000FF, 0x0000FFFF])) :=
  ⟨by decide, sortByCount_contract,
    scenario_reduced_to_two _ sortByCount (by decide) sortByCount_contract⟩

/-! ## Histogram: keys and counts -/

theorem keys_histogramAssign (h : Histogram) (c : Color) (v : Nat) :
    (histogramAssign h c v).map Prod.fst
      = if c ∈ h.map Prod.fst then h.map Prod.fst else h.map Prod.fst ++ [c] := by
  induction h with
  | nil => simp [histogramAssign]
  | cons p t ih =>
    obtain ⟨k, w⟩ := p
    simp only [histogramAssign]
    by_cases hk : k = c
    · simp [hk]
    · have hck : ¬ c = k := fun e => hk e.symm
      simp only [hk, if_false, List.map_cons, ih, List.mem_cons, hck, false_or]
      split_ifs <;> simp

theorem keys_histogramIncrement (h : Histogram) (c : Color) :
    (histogramIncrement h c).map Prod.fst
      = if c ∈ h.map Prod.fst then h.map Prod.fst else h.map Prod.fst ++ [c] := by
  induction h with
  | nil => simp [histogramIncrement]
  | cons p t ih =>
    obtain ⟨k, w⟩ := p
    simp only [histogramIncrement]
    by_cases hk : k = c
    · simp [hk]
    · have hck : ¬ c = k := fun e => hk e.symm
      simp only [hk, if_false, List.map_cons, ih, List.mem_cons, hck, false_or]
      split_ifs <;> simp

theorem mem_keys_histogramAssign (h : Histogram) (c : Color) (v : Nat) (x : Color) :
    x ∈ (histogramAssign h c v).map Prod.fst ↔ x ∈ h.map Prod.fst ∨ x = c := by
  rw [keys_histogramAssign]
  split_ifs with hc
  · constructor
    · exact Or.inl
    · rintro (hx | rfl)
      · exact hx
      · exact hc
  · simp

theorem mem_keys_histogramIncrement (h : Histogram) (c : Color) (x : Color) :
    x ∈ (histogramIncrement h c).map Prod.fst ↔ x ∈ h.map Prod.fst ∨ x = c := by
  rw [keys_histogramIncrement]
  split_ifs with hc
  · constructor
    · exact Or.inl
    · rintro (hx | rfl)
      · exact hx
      · exact hc
  · simp

theorem nodup_keys_histogramAssign (h : Histogram) (c : Color) (v : Nat)
    (hn : (h.map Prod.fst).Nodup) : ((histogramAssign h c v).map Prod.fst).Nodup := by
  rw [keys_histogramAssign]
  split_ifs with hc
  · exact hn
  · exact List.Nodup.append hn (List.nodup_singleton c) (by simpa using hc)

theorem nodup_keys_histogramIncrement (h : Histogram) (c : Color)
    (hn : (h.map Prod.fst).Nodup) : ((histogramIncrement h c).map Prod.fst).Nodup := by
  rw [keys_histogramIncrement]
  split_ifs with hc
  · exact hn
  · exact List.Nodup.append hn (List.nodup_singleton c) (by simpa using hc)

theorem pos_histogramAssign_one (h : Histogram) (c : Color)
    (hp : ∀ p ∈ h, 0 < p.2) : ∀ p ∈ histogramAssign h c 1, 0 < p.2 := by
  induction h with
  | nil => intro p hm; simp [histogramAssign] at hm; subst hm; exact Nat.one_pos
  | cons q t ih =>
    obtain ⟨k, w⟩ := q
    intro p hm
    simp only [histogramAssign] at hm
    split_ifs at hm with hk
    · rcases List.mem_cons.1 hm with rfl | hm
      · exact Nat.one_pos
      · exact hp p (List.mem_cons_of_mem _ hm)
    · rcases List.mem_cons.1 hm with rfl | hm
      · exact hp _ (List.mem_cons_self _ _)
      · exact ih (fun p hpm => hp p (List.mem_cons_of_mem _ hpm)) p hm

theorem pos_histogramIncrement (h : Histogram) (c : Color)
    (hp : ∀ p ∈ h, 0 < p.2) : ∀ p ∈ histogramIncrement h c, 0 < p.2 := by
  induction h with
  | nil => intro p hm; simp [histogramIncrement] at hm; subst hm; exact Nat.one_pos
  | cons q t ih =>
    obtain ⟨k, w⟩ := q
    intro p hm
    simp only [histogramIncrement] at hm
    split_ifs at hm with hk
    · rcases List.mem_cons.1 hm with rfl | hm
      · exact Nat.succ_pos _
      · exact hp p (List.mem_cons_of_mem _ hm)
    · rcases List.mem_cons.1 hm with rfl | hm
      · exact hp _ (List.mem_cons_self _ _)
      · exact ih (fun p hpm => hp p (List.mem_cons_of_mem _ hpm)) p hm

/-- A property both callbacks preserve holds of the final state of a traversal. -/
theorem quantizePixels_snd_invariant {σ : Type} (palette : Palette)
    (onMiss onHit : Color → σ → σ) (P : σ → Prop) (hmiss : ∀ c s, P s → P (onMiss c s))
    (hhit : ∀ c s, P s → P (onHit c s)) (cs : List Color) :
    ∀ (colorMap : ColorMap) (st : σ), P st →
      P (quantizePixels palette onMiss onHit cs colorMap st).2 := by
  induction cs with
  | nil => intro _ _ h; exact h
  | cons c cs ih =>
    intro colorMap st h
    simp only [quantizePixels]
    cases List.lookup c colorMap with
    | none => exact ih _ _ (hmiss _ _ h)
    | some q => exact ih _ _ (hhit _ _ h)

/-- The keys of the histogram after a traversal are the keys before it and the colours
written to the pixels. -/
theorem mem_keys_quantizePixels (palette : Palette) (cs : List Color) :
    ∀ (colorMap : ColorMap) (st : Histogram) (x : Color),
      x ∈ ((quantizePixels palette (fun color histogram => histogramAssign histogram color 1)
            (fun color histogram => histogramIncrement histogram color)
            cs colorMap st).2).map Prod.fst
        ↔ x ∈ st.map Prod.fst ∨
          x ∈ (quantizePixels palette
            (fun color histogram => histogramAssign histogram color 1)
            (fun color histogram => histogramIncrement histogram color)
            cs colorMap st).1 := by
  induction cs with
  | nil => intro colorMap st x; simp [quantizePixels]
  | cons c cs ih =>
    intro colorMap st x
    simp only [quantizePixels]
    cases List.lookup c colorMap with
    | none =>
      simp only [ih, mem_keys_histogramAssign, List.mem_cons]
      tauto
    | some q =>
      simp only [ih, mem_keys_histogramIncrement, List.mem_cons]
      tauto

theorem findClosestColor_lt (color : Nat) (palette : Palette) (hc : color < 2 ^ 32)
    (hpal : ∀ p ∈ palette, p < 2 ^ 32) : findClosestColor color palette < 2 ^ 32 := by
  rcases findClosestColor_mem_or color palette with h | h
  · rw [h]; exact hc
  · exact hpal _ h

theorem map_mod_eq_self (l : List Nat) (h : ∀ c ∈ l, c < 2 ^ 32) :
    l.map (fun c => c % 2 ^ 32) = l := by
  induction l with
  | nil => rfl
  | cons c t ih =>
    rw [List.map_cons, Nat.mod_eq_of_lt (h c (List.mem_cons_self _ _)),
      ih (fun x hx => h x (List.mem_cons_of_mem _ hx))]

/-- The pixels of the buffer a run returns, for a buffer of bytes and a palette of 32-bit
colours. -/
theorem pixelsOf_quantized (image : ImageData) (palette : Palette)
    (hbytes : ∀ x ∈ image, x < 256) (hpal : ∀ p ∈ palette, p < 2 ^ 32) :
    pixelsOf (encodePixels ((chunkPixels image).map (fun c => findClosestColor c palette)))
      = (pixelsOf image).map (fun c => findClosestColor c palette) := by
  rw [pixelsOf_eq_chunkPixels, chunkPixels_encodePixels, pixelsOf_eq_chunkPixels]
  apply map_mod_eq_self
  intro c hc
  obtain ⟨y, hy, rfl⟩ := List.mem_map.1 hc
  exact findClosestColor_lt y palette (chunkPixels_lt image hbytes y hy) hpal

/-- C12: for a buffer of bytes whose length is a multiple of 4 and a palette of 32-bit
colours, the keys of the histogram returned are unique, they are exactly the colours
present in the quantized image, and every stored count is positive. -/
theorem histogram_keys_are_output_colors (image : ImageData) (palette : Palette)
    (hlen : image.length % 4 = 0) (hbytes : ∀ x ∈ image, x < 256)
    (hpal : ∀ p ∈ palette, p < 2 ^ 32) :
    ∃ image1 histogram,
      convertImageToPaletteAndGetHistogram image palette = .ok (image1, histogram) ∧
      (histogram.map Prod.fst).Nodup ∧
      (∀ c, c ∈ histogram.map Prod.fst ↔ c ∈ pixelsOf image1) ∧
      ∀ p ∈ histogram, 0 < p.2 := by
  refine ⟨_, _, convertImageToPaletteAndGetHistogram_eq image palette hlen, ?_, ?_, ?_⟩
  · exact quantizePixels_snd_invariant palette _ _ (fun h => (h.map Prod.fst).Nodup)
      (fun c s hs => nodup_keys_histogramAssign s c 1 hs)
      (fun c s hs => nodup_keys_histogramIncrement s c hs) _ [] [] List.nodup_nil
  · intro c
    rw [mem_keys_quantizePixels, pixelsOf_quantized image palette hbytes hpal,
      quantizePixels_fst _ _ _ _ _ _ (cacheSound_nil palette), pixelsOf_eq_chunkPixels]
    simp
  · exact quantizePixels_snd_invariant palette _ _ (fun h => ∀ p ∈ h, 0 < p.2)
      (fun c s hs => pos_histogramAssign_one s c hs)
      (fun c s hs => pos_histogramIncrement s c hs) _ [] [] (by simp)

/-- C12 at a concrete input: three pixels, two of which resolve to the same colour. -/
theorem histogram_keys_are_output_colors_witness :
    ([0, 0, 0, 255, 1, 0, 0, 255, 250, 0, 0, 255] : ImageData).length % 4 = 0 ∧
    (∀ x ∈ ([0, 0, 0, 255, 1, 0, 0, 255, 250, 0, 0, 255] : ImageData), x < 256) ∧
    (∀ p ∈ ([0x000000FF, 0xFF0000FF] : Palette), p < 2 ^ 32) ∧
    ∃ image1 histogram,
      convertImageToPaletteAndGetHistogram [0, 0, 0, 255, 1, 0, 0, 255, 250, 0, 0, 255]
        [0x000000FF, 0xFF0000FF] = .ok (image1, histogram) ∧
      (histogram.map Prod.fst).Nodup ∧
      (∀ c, c ∈ histogram.map Prod.fst ↔ c ∈ pixelsOf image1) ∧
      ∀ p ∈ histogram, 0 < p.2 :=
  ⟨by decide, by decide, by decide,
    histogram_keys_are_output_colors _ _ (by decide) (by decide) (by decide)⟩

/-! ## Palette extractor: the scan -/

/-- On a buffer whose remaining part has `4 * n` bytes the scan of `loadPalette` finishes
with the colours the pixel-level scan collects. -/
theorem loadPaletteLoop_spec : ∀ (n : Nat) (bytes : ImageData), bytes.length = 4 * n →
    ∀ (pre : ImageData) (fuel : Nat) (uniqueColors : List Pixel), n < fuel →
      loadPaletteLoop fuel pre.length (pre ++ bytes) uniqueColors
        = .ok (collectUnique (chunkPixels bytes) uniqueColors) := by
  intro n
  induction n with
  | zero =>
    intro bytes hlen pre fuel uniqueColors hfuel
    have hb : bytes = [] := List.length_eq_zero.1 (by omega)
    subst hb
    obtain ⟨fuel, rfl⟩ : ∃ f, fuel = f + 1 := ⟨fuel - 1, by omega⟩
    simp [loadPaletteLoop, chunkPixels, collectUnique]
  | succ n ih =>
    intro bytes hlen pre fuel uniqueColors hfuel
    obtain ⟨fuel, rfl⟩ : ∃ f, fuel = f + 1 := ⟨fuel - 1, by omega⟩
    match bytes, hlen with
    | r :: g :: b :: a :: rest, hlen =>
      have hrest : rest.length = 4 * n := by simp at hlen; omega
      have hne : ¬ pre.length = (pre ++ r :: g :: b :: a :: rest).length := by simp
      have hpre : pre.length + PixelSize = (pre ++ [r, g, b, a]).length := by
        simp [PixelSize]
      rw [loadPaletteLoop, if_neg hne, getPixel_append]
      simp only [chunkPixels, collectUnique]
      rw [append_four, hpre]
      split_ifs
      · exact ih rest hrest _ fuel _ (by omega)
      · exact ih rest hrest _ fuel _ (by omega)
    | [], hlen => simp at hlen
    | [_], hlen => simp at hlen; omega
    | [_, _], hlen => simp at hlen; omega
    | [_, _, _], hlen => simp at hlen; omega

theorem loadPalette_eq (setOrder : List Pixel → List Pixel) (image : ImageData)
    (hlen : image.length % 4 = 0) :
    loadPalette setOrder image = .ok (setOrder (collectUnique (chunkPixels image) [])) := by
  have h := loadPaletteLoop_spec (image.length / 4) image (by omega) [] (image.length + 1) []
    (by omega)
  simp only [List.length_nil, List.nil_append] at h
  rw [loadPalette, h]
  rfl

theorem mem_collectUnique (cs : List Pixel) : ∀ (u : List Pixel) (x : Pixel),
    x ∈ collectUnique cs u ↔ x ∈ u ∨ x ∈ cs := by
  induction cs with
  | nil => intro u x; simp [collectUnique]
  | cons c cs ih =>
    intro u x
    simp only [collectUnique]
    split_ifs with hc
    · rw [ih, List.mem_cons]
      constructor
      · rintro (h | h)
        · exact Or.inl h
        · exact Or.inr (Or.inr h)
      · rintro (h | h | h)
        · exact Or.inl h
        · subst h; exact Or.inl hc
        · exact Or.inr h
    · rw [ih, List.mem_append, List.mem_singleton, List.mem_cons]
      tauto

theorem nodup_collectUnique (cs : List Pixel) : ∀ (u : List Pixel), u.Nodup →
    (collectUnique cs u).Nodup := by
  induction cs with
  | nil => intro u hu; exact hu
  | cons c cs ih =>
    intro u hu
    simp only [collectUnique]
    split_ifs with hc
    · exact ih u hu
    · exact ih _ (List.Nodup.append hu (List.nodup_singleton c) (by simpa using hc))

/-- C13: for a buffer whose length is a multiple of 4 and every iteration order of the
set, `loadPalette` returns a palette without duplicates whose colours are exactly the
colours of the pixels of the buffer; it is non-empty when the buffer holds a pixel. -/
theorem loadPalette_distinct_colors (setOrder : List Pixel → List Pixel) (image : ImageData)
    (hlen : image.length % 4 = 0) (hset : UnorderedSetOrder setOrder) :
    ∃ palette,
      loadPalette setOrder image = .ok palette ∧
      palette.Nodup ∧
      (∀ c, c ∈ palette ↔ c ∈ pixelsOf image) ∧
      (0 < image.length / PixelSize → palette ≠ []) := by
  have hmem : ∀ c, c ∈ setOrder (collectUnique (chunkPixels image) []) ↔ c ∈ pixelsOf image := by
    intro c
    rw [(hset _).mem_iff, mem_collectUnique, pixelsOf_eq_chunkPixels]
    simp
  refine ⟨_, loadPalette_eq setOrder image hlen, ?_, hmem, ?_⟩
  · exact (hset _).nodup_iff.2 (nodup_collectUnique _ [] List.nodup_nil)
  · intro hpos hnil
    have hl : 0 < (chunkPixels image).length := by
      rw [length_chunkPixels]; simpa [PixelSize] using hpos
    obtain ⟨c, hc⟩ := List.exists_mem_of_length_pos hl
    have := (hmem c).2 (by rw [pixelsOf_eq_chunkPixels]; exact hc)
    rw [hnil] at this
    simp at this

/-- C13 at a concrete input: three pixels, two distinct colours, the set iterated in
reverse insertion order. -/
theorem loadPalette_distinct_colors_witness :
    ([1, 2, 3, 255, 9, 9, 9, 255, 1, 2, 3, 255] : ImageData).length % 4 = 0 ∧
    UnorderedSetOrder List.reverse ∧
    ∃ palette,
      loadPalette List.reverse [1, 2, 3, 255, 9, 9, 9, 255, 1, 2, 3, 255] = .ok palette ∧
      palette.Nodup ∧
      (∀ c, c ∈ palette ↔ c ∈ pixelsOf [1, 2, 3, 255, 9, 9, 9, 255, 1, 2, 3, 255]) ∧
      (0 < ([1, 2, 3, 255, 9, 9, 9, 255, 1, 2, 3, 255] : ImageData).length / PixelSize →
        palette ≠ []) :=
  ⟨by decide, fun l => List.reverse_perm l,
    loadPalette_distinct_colors List.reverse _ (by decide) (fun l => List.reverse_perm l)⟩

/-! ## Palette extractor: order of insertion -/

theorem unorderedSetOrder_reverse : UnorderedSetOrder List.reverse :=
  fun l => List.reverse_perm l

theorem indexOf_append_cons_of_mem (u cs : List Pixel) (x y : Pixel) (hx : x ∈ u) :
    (u ++ x :: cs).indexOf y
      = if y ∈ u then u.indexOf y else (u ++ cs).indexOf y + 1 := by
  split_ifs with hy
  · exact List.indexOf_append_of_mem hy
  · have hne : x ≠ y := fun e => hy (e ▸ hx)
    rw [List.indexOf_append_of_not_mem hy, List.indexOf_append_of_not_mem hy,
      List.indexOf_cons_ne _ hne]
    omega

/-- Dropping a pixel whose colour is already in the set does not change which of two
colours comes first. -/
theorem indexOf_lt_append_cons_iff (u cs : List Pixel) (x c d : Pixel) (hx : x ∈ u) :
    (u ++ x :: cs).indexOf c < (u ++ x :: cs).indexOf d
      ↔ (u ++ cs).indexOf c < (u ++ cs).indexOf d := by
  rw [indexOf_append_cons_of_mem u cs x c hx, indexOf_append_cons_of_mem u cs x d hx]
  by_cases hc : c ∈ u <;> by_cases hd : d ∈ u
  · simp only [hc, hd, if_true, List.indexOf_append_of_mem]
  · have h1 := List.indexOf_lt_length.2 hc
    simp only [hc, hd, if_true, if_false, List.indexOf_append_of_mem hc,
      List.indexOf_append_of_not_mem hd]
    omega
  · have h1 := List.indexOf_lt_length.2 hd
    simp only [hc, hd, if_true, if_false, List.indexOf_append_of_mem hd,
      List.indexOf_append_of_not_mem hc]
    omega
  · simp only [hc, hd, if_false]
    omega

/-- The scan keeps the colours in the order of their first occurrence in the set followed
by the remaining pixels. -/
theorem indexOf_collectUnique (cs : List Pixel) : ∀ (u : List Pixel) (c d : Pixel),
    (collectUnique cs u).indexOf c < (collectUnique cs u).indexOf d
      ↔ (u ++ cs).indexOf c < (u ++ cs).indexOf d := by
  induction cs with
  | nil => intro u c d; simp [collectUnique]
  | cons x cs ih =>
    intro u c d
    simp only [collectUnique]
    split_ifs with hx
    · rw [ih u c d, indexOf_lt_append_cons_iff u cs x c d hx]
    · rw [ih (u ++ [x]) c d, List.append_assoc, List.singleton_append]

/-- C14 (counterexample): two pixels of different colours, the set iterated in reverse
insertion order, which the contract of `std::unordered_set` allows. The colour seen
second comes first in the palette. -/
theorem loadPalette_not_first_seen_order :
    UnorderedSetOrder List.reverse ∧
    ∃ palette,
      loadPalette List.reverse [1, 2, 3, 255, 9, 9, 9, 255] = .ok palette ∧
      palette = [0x090909FF, 0x010203FF] ∧
      (pixelsOf [1, 2, 3, 255, 9, 9, 9, 255]).indexOf 0x010203FF
        < (pixelsOf [1, 2, 3, 255, 9, 9, 9, 255]).indexOf 0x090909FF ∧
      ¬ palette.indexOf 0x010203FF < palette.indexOf 0x090909FF :=
  ⟨unorderedSetOrder_reverse, [0x090909FF, 0x010203FF], by rfl, rfl, by decide, by decide⟩

/-- C14 (amended): the scan inserts the distinct colours of the buffer into the set in
first-seen order, colour `c` before colour `d` exactly when the first pixel of colour `c`
comes before the first pixel of colour `d`; the palette returned is the rearrangement of
that sequence in which the set happens to be iterated. -/
theorem loadPalette_rearranges_first_seen (setOrder : List Pixel → List Pixel)
    (image : ImageData) (hlen : image.length % 4 = 0) (hset : UnorderedSetOrder setOrder) :
    ∃ uniqueColors palette,
      loadPaletteLoop (image.length + 1) 0 image [] = .ok uniqueColors ∧
      loadPalette setOrder image = .ok palette ∧
      palette = setOrder uniqueColors ∧
      palette.Perm uniqueColors ∧
      ∀ c d, c ∈ uniqueColors → d ∈ uniqueColors →
        (uniqueColors.indexOf c < uniqueColors.indexOf d
          ↔ (pixelsOf image).indexOf c < (pixelsOf image).indexOf d) := by
  have h := loadPaletteLoop_spec (image.length / 4) image (by omega) [] (image.length + 1) []
    (by omega)
  simp only [List.length_nil, List.nil_append] at h
  refine ⟨_, _, h, loadPalette_eq setOrder image hlen, rfl, hset _, ?_⟩
  intro c d _ _
  rw [indexOf_collectUnique, List.nil_append, pixelsOf_eq_chunkPixels]

/-- C14 (amended) at a concrete input. -/
theorem loadPalette_rearranges_first_seen_witness :
    ([1, 2, 3, 255, 9, 9, 9, 255, 1, 2, 3, 255] : ImageData).length % 4 = 0 ∧
    UnorderedSetOrder List.reverse ∧
    ∃ uniqueColors palette,
      loadPaletteLoop
        (([1, 2, 3, 255, 9, 9, 9, 255, 1, 2, 3, 255] : ImageData).length + 1) 0
        [1, 2, 3, 255, 9, 9, 9, 255, 1, 2, 3, 255] [] = .ok uniqueColors ∧
      loadPalette List.reverse [1, 2, 3, 255, 9, 9, 9, 255, 1, 2, 3, 255] = .ok palette ∧
      palette = List.reverse uniqueColors ∧
      palette.Perm uniqueColors ∧
      ∀ c d, c ∈ uniqueColors → d ∈ uniqueColors →
        (uniqueColors.indexOf c < uniqueColors.indexOf d
          ↔ (pixelsOf [1, 2, 3, 255, 9, 9, 9, 255, 1, 2, 3, 255]).indexOf c
              < (pixelsOf [1, 2, 3, 255, 9, 9, 9, 255, 1, 2, 3, 255]).indexOf d) :=
  ⟨by decide, unorderedSetOrder_reverse,
    loadPalette_rearranges_first_seen List.reverse _ (by decide) unorderedSetOrder_reverse⟩

/-! ## Empty palette -/

theorem map_findClosestColor_nil (cs : List Color) :
    cs.map (fun c => findClosestColor c []) = cs := by
  induction cs with
  | nil => rfl
  | cons c cs ih => rw [List.map_cons, ih, findClosestColor_nil]

theorem reducedPalette_zero (stdSort : List ColorFrequency → List ColorFrequency)
    (histogram : Histogram) : reducedPalette stdSort histogram 0 = [] := by
  rw [reducedPalette_eq_take, List.take_zero, List.map_nil]

/-- C15: `findClosestColor` returns its argument on the empty palette, so for a buffer of
bytes whose length is a multiple of 4 `replaceColorsByClosestOne` against the empty
palette returns the buffer unchanged; `reduceColors` with maximum 0 builds the empty
reduced palette and returns the image unchanged, for every histogram. -/
theorem empty_palette_leaves_image_unchanged {σ : Type} (image : ImageData)
    (onColorCacheMiss onColorCacheHit : Color → σ → σ) (init : σ)
    (stdSort : List ColorFrequency → List ColorFrequency) (histogram : Histogram)
    (hlen : image.length % 4 = 0) (hbytes : ∀ x ∈ image, x < 256) :
    (∀ c, findClosestColor c [] = c) ∧
    (∃ st, replaceColorsByClosestOne image [] onColorCacheMiss onColorCacheHit init
      = .ok (image, st)) ∧
    (reducedPalette stdSort histogram 0).length = 0 ∧
    reduceColors stdSort image histogram 0 = .ok image := by
  refine ⟨findClosestColor_nil,
    ⟨(quantizePixels [] onColorCacheMiss onColorCacheHit (chunkPixels image) [] init).2, ?_⟩,
    ?_, ?_⟩
  · rw [replaceColorsByClosestOne_eq image [] _ _ init hlen, map_findClosestColor_nil,
      encodePixels_chunkPixels image hlen hbytes]
  · rw [reducedPalette_zero]; rfl
  · rw [reduceColors_eq stdSort image histogram 0 hlen, reducedPalette_zero,
      map_findClosestColor_nil, encodePixels_chunkPixels image hlen hbytes]

/-- C15 at a concrete input: two pixels and a histogram with two keys. -/
theorem empty_palette_leaves_image_unchanged_witness :
    ([1, 2, 3, 255, 200, 100, 0, 7] : ImageData).length % 4 = 0 ∧
    (∀ x ∈ ([1, 2, 3, 255, 200, 100, 0, 7] : ImageData), x < 256) ∧
    (∀ c, findClosestColor c [] = c) ∧
    (∃ st, replaceColorsByClosestOne [1, 2, 3, 255, 200, 100, 0, 7] []
      (fun color histogram => histogramAssign histogram color 1)
      (fun color histogram => histogramIncrement histogram color) ([] : Histogram)
      = .ok ([1, 2, 3, 255, 200, 100, 0, 7], st)) ∧
    (reducedPalette sortByCount [(0x010203FF, 1), (0xC8640007, 1)] 0).length = 0 ∧
    reduceColors sortByCount [1, 2, 3, 255, 200, 100, 0, 7]
      [(0x010203FF, 1), (0xC8640007, 1)] 0 = .ok [1, 2, 3, 255, 200, 100, 0, 7] :=
  ⟨by decide, by decide,
    empty_palette_leaves_image_unchanged _ _ _ _ sortByCount _ (by decide) (by decide)⟩

/-! ## Buffer length and bounds -/

theorem getPixel_none_of_short (image : ImageData) (it : Nat) (h : image.length ≤ it + 3) :
    getPixel image it = none := by
  unfold getPixel
  have h3 : image[it + 3]? = none := List.getElem?_eq_none h
  rw [h3]
  cases image[it]? <;> cases image[it + 1]? <;> cases image[it + 2]? <;> rfl

/-- A buffer whose remaining part is not a whole number of pixels: the loop of
`replaceColorsByClosestOne` does not stop at the end, it reads beyond it. -/
theorem replaceLoop_outOfBounds {σ : Type} (palette : Palette)
    (onMiss onHit : Color → σ → σ) :
    ∀ (n : Nat) (bytes : ImageData), bytes.length / 4 = n → bytes.length % 4 ≠ 0 →
    ∀ (pre : ImageData) (fuel : Nat) (colorMap : ColorMap) (st : σ), n < fuel →
      replaceLoop palette onMiss onHit fuel pre.length (pre ++ bytes) colorMap st
        = .error .outOfBounds := by
  intro n
  induction n with
  | zero =>
    intro bytes hdiv hmod pre fuel colorMap st hfuel
    obtain ⟨fuel, rfl⟩ : ∃ f, fuel = f + 1 := ⟨fuel - 1, by omega⟩
    have hne : ¬ pre.length = (pre ++ bytes).length := by
      rw [List.length_append]; omega
    rw [replaceLoop, if_neg hne,
      getPixel_none_of_short _ _ (by rw [List.length_append]; omega)]
  | succ n ih =>
    intro bytes hdiv hmod pre fuel colorMap st hfuel
    obtain ⟨fuel, rfl⟩ : ∃ f, fuel = f + 1 := ⟨fuel - 1, by omega⟩
    match bytes, hdiv, hmod with
    | r :: g :: b :: a :: rest, hdiv, hmod =>
      have hdiv2 : rest.length / 4 = n := by simp only [List.length_cons] at hdiv; omega
      have hmod2 : rest.length % 4 ≠ 0 := by simp only [List.length_cons] at hmod; omega
      have hne : ¬ pre.length = (pre ++ r :: g :: b :: a :: rest).length := by simp
      rw [replaceLoop, if_neg hne, getPixel_append]
      cases hlk : List.lookup (r <<< 24 ||| g <<< 16 ||| b <<< 8 ||| a) colorMap with
      | none =>
        simp only [hlk, setPixel_append]
        have hpre : pre.length + PixelSize = (pre ++ [red (findClosestColor (r <<< 24 ||| g <<< 16 ||| b <<< 8 ||| a) palette), green (findClosestColor (r <<< 24 ||| g <<< 16 ||| b <<< 8 ||| a) palette), blue (findClosestColor (r <<< 24 ||| g <<< 16 ||| b <<< 8 ||| a) palette), alpha (findClosestColor (r <<< 24 ||| g <<< 16 ||| b <<< 8 ||| a) palette)]).length := by
          simp [PixelSize]
        rw [append_four, hpre]
        exact ih rest hdiv2 hmod2 _ fuel _ _ (by omega)
      | some q =>
        simp only [hlk, setPixel_append]
        have hpre : pre.length + PixelSize = (pre ++ [red q, green q, blue q, alpha q]).length := by
          simp [PixelSize]
        rw [append_four, hpre]
        exact ih rest hdiv2 hmod2 _ fuel _ _ (by omega)
    | [], hdiv, _ => simp only [List.length_nil] at hdiv; omega
    | [_], hdiv, _ => simp only [List.length_cons, List.length_nil] at hdiv; omega
    | [_, _], hdiv, _ => simp only [List.length_cons, List.length_nil] at hdiv; omega
    | [_, _, _], hdiv, _ => simp only [List.length_cons, List.length_nil] at hdiv; omega

/-- The same for the scan of `loadPalette`. -/
theorem loadPaletteLoop_outOfBounds :
    ∀ (n : Nat) (bytes : ImageData), bytes.length / 4 = n → bytes.length % 4 ≠ 0 →
    ∀ (pre : ImageData) (fuel : Nat) (uniqueColors : List Pixel), n < fuel →
      loadPaletteLoop fuel pre.length (pre ++ bytes) uniqueColors = .error .outOfBounds := by
  intro n
  induction n with
  | zero =>
    intro bytes hdiv hmod pre fuel uniqueColors hfuel
    obtain ⟨fuel, rfl⟩ : ∃ f, fuel = f + 1 := ⟨fuel - 1, by omega⟩
    have hne : ¬ pre.length = (pre ++ bytes).length := by
      rw [List.length_append]; omega
    rw [loadPaletteLoop, if_neg hne,
      getPixel_none_of_short _ _ (by rw [List.length_append]; omega)]
  | succ n ih =>
    intro bytes hdiv hmod pre fuel uniqueColors hfuel
    obtain ⟨fuel, rfl⟩ : ∃ f, fuel = f + 1 := ⟨fuel - 1, by omega⟩
    match bytes, hdiv, hmod with
    | r :: g :: b :: a :: rest, hdiv, hmod =>
      have hdiv2 : rest.length / 4 = n := by simp only [List.length_cons] at hdiv; omega
      have hmod2 : rest.length % 4 ≠ 0 := by simp only [List.length_cons] at hmod; omega
      have hne : ¬ pre.length = (pre ++ r :: g :: b :: a :: rest).length := by simp
      have hpre : pre.length + PixelSize = (pre ++ [r, g, b, a]).length := by
        simp [PixelSize]
      rw [loadPaletteLoop, if_neg hne, getPixel_append]
      simp only
      rw [append_four, hpre]
      split_ifs
      · exact ih rest hdiv2 hmod2 _ fuel _ (by omega)
      · exact ih rest hdiv2 hmod2 _ fuel _ (by omega)
    | [], hdiv, _ => simp only [List.length_nil] at hdiv; omega
    | [_], hdiv, _ => simp only [List.length_cons, List.length_nil] at hdiv; omega
    | [_, _], hdiv, _ => simp only [List.length_cons, List.length_nil] at hdiv; omega
    | [_, _, _], hdiv, _ => simp only [List.length_cons, List.length_nil] at hdiv; omega

/-- With fuel for fewer than `n` iterations the loop of `replaceColorsByClosestOne` does
not reach the end of `4 * n` remaining bytes. -/
theorem replaceLoop_outOfFuel {σ : Type} (palette : Palette)
    (onMiss onHit : Color → σ → σ) :
    ∀ (n : Nat) (bytes : ImageData), bytes.length = 4 * n →
    ∀ (pre : ImageData) (fuel : Nat) (colorMap : ColorMap) (st : σ), fuel ≤ n →
      replaceLoop palette onMiss onHit fuel pre.length (pre ++ bytes) colorMap st
        = .error .outOfFuel := by
  intro n
  induction n with
  | zero =>
    intro bytes _ pre fuel colorMap st hfuel
    have h0 : fuel = 0 := by omega
    subst h0
    rfl
  | succ n ih =>
    intro bytes hlen pre fuel colorMap st hfuel
    cases fuel with
    | zero => rfl
    | succ fuel =>
      match bytes, hlen with
      | r :: g :: b :: a :: rest, hlen =>
        have hrest : rest.length = 4 * n := by simp at hlen; omega
        have hne : ¬ pre.length = (pre ++ r :: g :: b :: a :: rest).length := by simp
        rw [replaceLoop, if_neg hne, getPixel_append]
        cases hlk : List.lookup (r <<< 24 ||| g <<< 16 ||| b <<< 8 ||| a) colorMap with
        | none =>
          simp only [hlk, setPixel_append]
          have hpre : pre.length + PixelSize = (pre ++ [red (findClosestColor (r <<< 24 ||| g <<< 16 ||| b <<< 8 ||| a) palette), green (findClosestColor (r <<< 24 ||| g <<< 16 ||| b <<< 8 ||| a) palette), blue (findClosestColor (r <<< 24 ||| g <<< 16 ||| b <<< 8 ||| a) palette), alpha (findClosestColor (r <<< 24 ||| g <<< 16 ||| b <<< 8 ||| a) palette)]).length := by
            simp [PixelSize]
          rw [append_four, hpre]
          exact ih rest hrest _ fuel _ _ (by omega)
        | some q =>
          simp only [hlk, setPixel_append]
          have hpre : pre.length + PixelSize = (pre ++ [red q, green q, blue q, alpha q]).length := by
            simp [PixelSize]
          rw [append_four, hpre]
          exact ih rest hrest _ fuel _ _ (by omega)
      | [], hlen => simp at hlen
      | [_], hlen => simp at hlen; omega
      | [_, _], hlen => simp at hlen; omega
      | [_, _, _], hlen => simp at hlen; omega

/-- The same for the scan of `loadPalette`. -/
theorem loadPaletteLoop_outOfFuel :
    ∀ (n : Nat) (bytes : ImageData), bytes.length = 4 * n →
    ∀ (pre : ImageData) (fuel : Nat) (uniqueColors : List Pixel), fuel ≤ n →
      loadPaletteLoop fuel pre.length (pre ++ bytes) uniqueColors = .error .outOfFuel := by
  intro n
  induction n with
  | zero =>
    intro bytes _ pre fuel uniqueColors hfuel
    have h0 : fuel = 0 := by omega
    subst h0
    rfl
  | succ n ih =>
    intro bytes hlen pre fuel uniqueColors hfuel
    cases fuel with
    | zero => rfl
    | succ fuel =>
      match bytes, hlen with
      | r :: g :: b :: a :: rest, hlen =>
        have hrest : rest.length = 4 * n := by simp at hlen; omega
        have hne : ¬ pre.length = (pre ++ r :: g :: b :: a :: rest).length := by simp
        have hpre : pre.length + PixelSize = (pre ++ [r, g, b, a]).length := by
          simp [PixelSize]
        rw [loadPaletteLoop, if_neg hne, getPixel_append]
        simp only
        rw [append_four, hpre]
        split_ifs
        · exact ih rest hrest _ fuel _ (by omega)
        · exact ih rest hrest _ fuel _ (by omega)
      | [], hlen => simp at hlen
      | [_], hlen => simp at hlen; omega
      | [_, _], hlen => simp at hlen; omega
      | [_, _, _], hlen => simp at hlen; omega

/-- C16 (counterexample): a buffer of 5 bytes. Neither traversal detects the length: after
the first pixel the iterator is at position 4, which differs from the end 5, and the next
`getPixel` dereferences positions 4 to 7 of a 5-byte buffer. -/
theorem malformed_length_reads_out_of_bounds :
    ([1, 2, 3, 4, 5] : ImageData).length % PixelSize ≠ 0 ∧
    loadPalette List.reverse [1, 2, 3, 4, 5] = .error .outOfBounds ∧
    replaceColorsByClosestOne [1, 2, 3, 4, 5] [0x000000FF]
      (fun _ (u : Unit) => u) (fun _ (u : Unit) => u) () = .error .outOfBounds ∧
    getPixel [1, 2, 3, 4, 5] 0 = some 0x01020304 ∧
    0 + PixelSize ≠ ([1, 2, 3, 4, 5] : ImageData).length ∧
    getPixel [1, 2, 3, 4, 5] (0 + PixelSize) = none ∧
    ([1, 2, 3, 4, 5] : ImageData).length ≤ 0 + PixelSize + 3 :=
  ⟨by decide, by rfl, by rfl, by decide, by decide, by decide, by decide⟩

/-- C16 (amended): on a buffer whose length is a multiple of 4 both traversals return
after exactly `length / 4` iterations, every `getPixel` inside the buffer; on a buffer
whose length is not a multiple of 4 neither traversal detects it, the iterator steps over
the end and a `getPixel` reads beyond the buffer. -/
theorem traversal_bounds {σ : Type} (setOrder : List Pixel → List Pixel) (image : ImageData)
    (palette : Palette) (onColorCacheMiss onColorCacheHit : Color → σ → σ) (init : σ) :
    (image.length % 4 = 0 →
      (∃ p, loadPalette setOrder image = .ok p) ∧
      (∃ r, replaceColorsByClosestOne image palette onColorCacheMiss onColorCacheHit init
        = .ok r) ∧
      (∃ u, loadPaletteLoop (image.length / 4 + 1) 0 image [] = .ok u) ∧
      loadPaletteLoop (image.length / 4) 0 image [] = .error .outOfFuel ∧
      (∃ r, replaceLoop palette onColorCacheMiss onColorCacheHit (image.length / 4 + 1) 0
        image [] init = .ok r) ∧
      replaceLoop palette onColorCacheMiss onColorCacheHit (image.length / 4) 0 image []
        init = .error .outOfFuel) ∧
    (image.length % 4 ≠ 0 →
      loadPalette setOrder image = .error .outOfBounds ∧
      replaceColorsByClosestOne image palette onColorCacheMiss onColorCacheHit init
        = .error .outOfBounds) := by
  constructor
  · intro hlen
    have hl : image.length = 4 * (image.length / 4) := by omega
    have h1 := loadPaletteLoop_spec (image.length / 4) image hl [] (image.length / 4 + 1) []
      (by omega)
    have h2 := loadPaletteLoop_outOfFuel (image.length / 4) image hl [] (image.length / 4) []
      (Nat.le_refl _)
    have h3 := replaceLoop_spec palette onColorCacheMiss onColorCacheHit (image.length / 4)
      image hl [] (image.length / 4 + 1) [] init (by omega)
    have h4 := replaceLoop_outOfFuel palette onColorCacheMiss onColorCacheHit
      (image.length / 4) image hl [] (image.length / 4) [] init (Nat.le_refl _)
    simp only [List.length_nil, List.nil_append] at h1 h2 h3 h4
    exact ⟨⟨_, loadPalette_eq setOrder image hlen⟩,
      ⟨_, replaceColorsByClosestOne_eq image palette _ _ init hlen⟩,
      ⟨_, h1⟩, h2, ⟨_, h3⟩, h4⟩
  · intro hlen
    have h1 := loadPaletteLoop_outOfBounds (image.length / 4) image rfl hlen []
      (image.length + 1) [] (by omega)
    have h2 := replaceLoop_outOfBounds palette onColorCacheMiss onColorCacheHit
      (image.length / 4) image rfl hlen [] (image.length + 1) [] init (by omega)
    simp only [List.length_nil, List.nil_append] at h1 h2
    refine ⟨?_, ?_⟩
    · rw [loadPalette, h1]; rfl
    · rw [replaceColorsByClosestOne, h2]

/-- C16 (amended) at two concrete buffers, of 8 and of 6 bytes. -/
theorem traversal_bounds_witness :
    ((∃ p, loadPalette List.reverse [1, 2, 3, 255, 9, 9, 9, 255] = .ok p) ∧
      (∃ r, replaceColorsByClosestOne [1, 2, 3, 255, 9, 9, 9, 255] [0x000000FF]
        (fun _ (u : Unit) => u) (fun _ (u : Unit) => u) () = .ok r) ∧
      (∃ u, loadPaletteLoop (([1, 2, 3, 255, 9, 9, 9, 255] : ImageData).length / 4 + 1) 0
        [1, 2, 3, 255, 9, 9, 9, 255] [] = .ok u) ∧
      loadPaletteLoop (([1, 2, 3, 255, 9, 9, 9, 255] : ImageData).length / 4) 0
        [1, 2, 3, 255, 9, 9, 9, 255] [] = .error .outOfFuel ∧
      (∃ r, replaceLoop [0x000000FF] (fun _ (u : Unit) => u) (fun _ (u : Unit) => u)
        (([1, 2, 3, 255, 9, 9, 9, 255] : ImageData).length / 4 + 1) 0
        [1, 2, 3, 255, 9, 9, 9, 255] [] () = .ok r) ∧
      replaceLoop [0x000000FF] (fun _ (u : Unit) => u) (fun _ (u : Unit) => u)
        (([1, 2, 3, 255, 9, 9, 9, 255] : ImageData).length / 4) 0
        [1, 2, 3, 255, 9, 9, 9, 255] [] () = .error .outOfFuel) ∧
    (loadPalette List.reverse [1, 2, 3, 255, 9, 9] = .error .outOfBounds ∧
      replaceColorsByClosestOne [1, 2, 3, 255, 9, 9] [0x000000FF]
        (fun _ (u : Unit) => u) (fun _ (u : Unit) => u) () = .error .outOfBounds) :=
  ⟨(traversal_bounds List.reverse [1, 2, 3, 255, 9, 9, 9, 255] [0x000000FF]
      (fun _ (u : Unit) => u) (fun _ (u : Unit) => u) ()).1 (by decide),
    (traversal_bounds List.reverse [1, 2, 3, 255, 9, 9] [0x000000FF]
      (fun _ (u : Unit) => u) (fun _ (u : Unit) => u) ()).2 (by decide)⟩

/-! ## The cache does not change the result -/

theorem getPixel_eq_chunkPixels (image : ImageData) : ∀ (k : Nat),
    getPixel image (k * PixelSize) = (chunkPixels image)[k]? := by
  induction image using chunkPixels.induct with
  | case1 r g b a rest ih =>
    intro k
    cases k with
    | zero =>
      have := getPixel_append [] rest r g b a
      simp only [List.nil_append, List.length_nil] at this
      simp only [Nat.zero_mul, this, chunkPixels, List.getElem?_cons_zero]
    | succ k =>
      have e : (k + 1) * PixelSize = k * PixelSize + 4 := by simp [PixelSize, Nat.add_mul]
      rw [e, getPixel_cons_four, ih k, chunkPixels, List.getElem?_cons_succ]
  | case2 x hx =>
    intro k
    have hlen : x.length ≤ 3 := by
      match x, hx with
      | [], _ => simp
      | [_], _ => simp
      | [_, _], _ => simp
      | [_, _, _], _ => simp
      | r :: g :: b :: a :: rest, hx => exact absurd rfl (hx r g b a rest)
    rw [getPixel_none_of_short _ _ (by omega), chunkPixels]
    · rfl
    · exact hx

theorem setPixel_append_drop (pre rest : ImageData) (c : Color) (h : 4 ≤ rest.length) :
    setPixel (pre ++ rest) pre.length c
      = pre ++ (red c :: green c :: blue c :: alpha c :: rest.drop 4) := by
  match rest, h with
  | r :: g :: b :: a :: tail, _ => rw [setPixel_append]; rfl
  | [], h => simp at h
  | [_], h => simp at h
  | [_, _], h => simp at h
  | [_, _, _], h => simp at h

theorem encodePixels_append (l1 l2 : List Color) :
    encodePixels (l1 ++ l2) = encodePixels l1 ++ encodePixels l2 := by
  induction l1 with
  | nil => rfl
  | cons c cs ih =>
    rw [List.cons_append, encodePixels, encodePixels, ih]
    rfl

/-- After `k` steps of the independent replacement the first `k` pixels are replaced and
the rest of the buffer is as it was. -/
theorem foldl_replaceEachPixel (image : ImageData) (palette : Palette) :
    ∀ (k : Nat), k ≤ image.length / 4 →
      (List.range k).foldl
          (fun result i =>
            match getPixel image (i * PixelSize) with
            | some color => setPixel result (i * PixelSize) (findClosestColor color palette)
            | none => result)
          image
        = encodePixels (((chunkPixels image).take k).map
            (fun c => findClosestColor c palette)) ++ image.drop (4 * k) := by
  intro k
  induction k with
  | zero => intro _; simp [encodePixels]
  | succ k ih =>
    intro hk
    have hk2 : k < (chunkPixels image).length := by rw [length_chunkPixels]; omega
    rw [List.range_succ, List.foldl_append, ih (by omega)]
    simp only [List.foldl_cons, List.foldl_nil]
    rw [getPixel_eq_chunkPixels, List.getElem?_eq_getElem hk2]
    simp only
    have hlenE : (encodePixels (((chunkPixels image).take k).map
        (fun c => findClosestColor c palette))).length = k * PixelSize := by
      rw [length_encodePixels, List.length_map, List.length_take, PixelSize]
      omega
    rw [← hlenE, setPixel_append_drop _ _ _ (by rw [List.length_drop]; omega),
      List.drop_drop, List.take_succ, List.getElem?_eq_getElem hk2]
    simp only [Option.toList, List.map_append, List.map_cons, List.map_nil,
      encodePixels_append, encodePixels, List.append_assoc, List.cons_append,
      List.nil_append]
    rw [show 4 * k + 4 = 4 * (k + 1) by omega]

theorem replaceEachPixel_eq (image : ImageData) (palette : Palette)
    (hlen : image.length % 4 = 0) :
    replaceEachPixel image palette
      = encodePixels ((chunkPixels image).map (fun c => findClosestColor c palette)) := by
  have h := foldl_replaceEachPixel image palette (image.length / 4) (Nat.le_refl _)
  have hd : image.drop (4 * (image.length / 4)) = [] :=
    List.drop_eq_nil_of_le (by omega)
  have ht : (chunkPixels image).take (image.length / 4) = chunkPixels image :=
    List.take_of_length_le (by rw [length_chunkPixels])
  rw [hd, ht, List.append_nil] at h
  rw [replaceEachPixel]
  simpa [PixelSize] using h

/-- C17: for a buffer whose length is a multiple of 4, the buffer
`replaceColorsByClosestOne` returns is the buffer obtained by replacing each pixel
independently with `findClosestColor` of its original colour, and it has the length of
the input. -/
theorem replaceColorsByClosestOne_eq_replaceEachPixel {σ : Type} (image : ImageData)
    (palette : Palette) (onColorCacheMiss onColorCacheHit : Color → σ → σ) (init : σ)
    (hlen : image.length % 4 = 0) :
    ∃ st,
      replaceColorsByClosestOne image palette onColorCacheMiss onColorCacheHit init
        = .ok (replaceEachPixel image palette, st) ∧
      (replaceEachPixel image palette).length = image.length := by
  refine ⟨(quantizePixels palette onColorCacheMiss onColorCacheHit (chunkPixels image) []
    init).2, ?_, ?_⟩
  · rw [replaceEachPixel_eq image palette hlen]
    exact replaceColorsByClosestOne_eq image palette _ _ init hlen
  · rw [replaceEachPixel_eq image palette hlen, length_encodePixels, List.length_map,
      length_chunkPixels]
    omega

/-- C17 at a concrete input: the colour of the first pixel occurs again as the third. -/
theorem replaceColorsByClosestOne_eq_replaceEachPixel_witness :
    ([1, 2, 3, 255, 200, 100, 0, 255, 1, 2, 3, 255] : ImageData).length % 4 = 0 ∧
    ∃ st,
      replaceColorsByClosestOne [1, 2, 3, 255, 200, 100, 0, 255, 1, 2, 3, 255]
          [0x000000FF, 0xFFFFFFFF] (fun _ (u : Unit) => u) (fun _ (u : Unit) => u) ()
        = .ok (replaceEachPixel [1, 2, 3, 255, 200, 100, 0, 255, 1, 2, 3, 255]
            [0x000000FF, 0xFFFFFFFF], st) ∧
      (replaceEachPixel [1, 2, 3, 255, 200, 100, 0, 255, 1, 2, 3, 255]
          [0x000000FF, 0xFFFFFFFF]).length
        = ([1, 2, 3, 255, 200, 100, 0, 255, 1, 2, 3, 255] : ImageData).length :=
  ⟨by decide,
    replaceColorsByClosestOne_eq_replaceEachPixel _ _ _ _ () (by decide)⟩

/-! ## Calls of the callbacks -/

/-- With the two logging callbacks, a sound cache whose keys are the colours seen so far
yields the expected calls. -/
theorem quantizePixels_events (palette : Palette) (cs : List Color) :
    ∀ (colorMap : ColorMap) (log : List CacheEvent) (seen : List Color),
      CacheSound palette colorMap → (∀ c, colorMap.lookup c = none ↔ c ∉ seen) →
      (quantizePixels palette (fun c l => l ++ [CacheEvent.miss c])
          (fun c l => l ++ [CacheEvent.hit c]) cs colorMap log).2
        = log ++ expectedEvents palette cs seen := by
  induction cs with
  | nil => intro colorMap log seen _ _; simp [quantizePixels, expectedEvents]
  | cons c cs ih =>
    intro colorMap log seen hs hkeys
    simp only [quantizePixels, expectedEvents]
    cases hlk : List.lookup c colorMap with
    | none =>
      have hc : c ∉ seen := (hkeys c).1 hlk
      have hkeys2 : ∀ x, List.lookup x ((c, findClosestColor c palette) :: colorMap) = none
          ↔ x ∉ c :: seen := by
        intro x
        rw [List.lookup_cons]
        by_cases hx : x = c
        · subst hx; simp
        · have hb : (x == c) = false := by simpa using hx
          rw [hb]
          simp only [List.mem_cons, hx, false_or]
          exact hkeys x
      simp only
      rw [ih _ _ (c :: seen) (cacheSound_cons palette colorMap c hs) hkeys2, if_neg hc]
      simp
    | some q =>
      have hc : c ∈ seen := by
        by_contra hn
        rw [(hkeys c).2 hn] at hlk
        exact Option.noConfusion hlk
      have hq : q = findClosestColor c palette := hs c q hlk
      have hkeys2 : ∀ x, List.lookup x colorMap = none ↔ x ∉ c :: seen := by
        intro x
        rw [hkeys x, List.mem_cons]
        constructor
        · rintro hx (rfl | h)
          · exact hx hc
          · exact hx h
        · intro hx h
          exact hx (Or.inr h)
      simp only
      rw [ih _ _ (c :: seen) hs hkeys2, if_pos hc, hq]
      simp

theorem length_expectedEvents (palette : Palette) (cs : List Color) :
    ∀ (seen : List Color), (expectedEvents palette cs seen).length = cs.length := by
  induction cs with
  | nil => intro _; rfl
  | cons c cs ih => intro seen; simp only [expectedEvents, List.length_cons, ih]

theorem countP_isMiss_add_isHit (l : List CacheEvent) :
    l.countP CacheEvent.isMiss + l.countP CacheEvent.isHit = l.length := by
  induction l with
  | nil => rfl
  | cons e t ih =>
    cases e with
    | miss c =>
      rw [List.countP_cons_of_pos _ _ (by rfl : CacheEvent.isMiss (.miss c) = true),
        List.countP_cons_of_neg _ _ (by simp [CacheEvent.isHit]), List.length_cons]
      omega
    | hit c =>
      rw [List.countP_cons_of_neg _ _ (by simp [CacheEvent.isMiss]),
        List.countP_cons_of_pos _ _ (by rfl : CacheEvent.isHit (.hit c) = true),
        List.length_cons]
      omega

/-- The expected calls hold one miss for every colour that is not among the colours
seen before. -/
theorem countP_isMiss_expectedEvents (palette : Palette) (cs : List Color) :
    ∀ (seen : List Color),
      (expectedEvents palette cs seen).countP CacheEvent.isMiss
        = (cs.toFinset \ seen.toFinset).card := by
  induction cs with
  | nil => intro seen; simp [expectedEvents]
  | cons c cs ih =>
    intro seen
    simp only [expectedEvents]
    by_cases hc : c ∈ seen
    · rw [if_pos hc, List.countP_cons_of_neg _ _ (by simp [CacheEvent.isMiss]), ih]
      congr 1
      ext x
      simp only [Finset.mem_sdiff, List.mem_toFinset, List.mem_cons]
      constructor
      · rintro ⟨hx, hn⟩
        exact ⟨Or.inr hx, fun h => hn (Or.inr h)⟩
      · rintro ⟨hx | hx, hn⟩
        · subst hx; exact absurd hc hn
        · refine ⟨hx, ?_⟩
          rintro (rfl | h)
          · exact hn hc
          · exact hn h
    · rw [if_neg hc,
        List.countP_cons_of_pos _ _ (by rfl : CacheEvent.isMiss (.miss _) = true), ih]
      have hnot : c ∉ cs.toFinset \ (c :: seen).toFinset := by
        simp
      have heq : (c :: cs).toFinset \ seen.toFinset
          = insert c (cs.toFinset \ (c :: seen).toFinset) := by
        ext x
        simp only [Finset.mem_sdiff, List.mem_toFinset, List.mem_cons, Finset.mem_insert]
        constructor
        · rintro ⟨hx | hx, hn⟩
          · exact Or.inl hx
          · by_cases hxc : x = c
            · exact Or.inl hxc
            · refine Or.inr ⟨hx, ?_⟩
              rintro (h | h)
              · exact hxc h
              · exact hn h
        · rintro (hx | ⟨hx, hn⟩)
          · subst hx; exact ⟨Or.inl rfl, hc⟩
          · exact ⟨Or.inr hx, fun h => hn (Or.inr h)⟩
      rw [heq, Finset.card_insert_of_not_mem hnot]

/-- C18: with callbacks that record their calls, `replaceColorsByClosestOne` on a buffer
whose length is a multiple of 4 calls the cache-miss callback at the first occurrence of
every original colour, with the result of `findClosestColor` computed in that branch, and
the cache-hit callback at every other pixel: the misses number the distinct original
colours, and misses and hits together the pixels. -/
theorem replaceColorsByClosestOne_calls (image : ImageData) (palette : Palette)
    (hlen : image.length % 4 = 0) :
    ∃ image1 log,
      replaceColorsByClosestOne image palette (fun c l => l ++ [CacheEvent.miss c])
        (fun c l => l ++ [CacheEvent.hit c]) [] = .ok (image1, log) ∧
      log = expectedEvents palette (pixelsOf image) [] ∧
      log.countP CacheEvent.isMiss = (pixelsOf image).dedup.length ∧
      log.countP CacheEvent.isMiss + log.countP CacheEvent.isHit
        = image.length / PixelSize := by
  have hlog := quantizePixels_events palette (chunkPixels image) [] [] []
    (cacheSound_nil palette) (by simp)
  rw [List.nil_append] at hlog
  refine ⟨_, _, replaceColorsByClosestOne_eq image palette _ _ [] hlen, ?_, ?_, ?_⟩
  · rw [hlog, pixelsOf_eq_chunkPixels]
  · rw [hlog, countP_isMiss_expectedEvents, pixelsOf_eq_chunkPixels, List.toFinset_nil,
      Finset.sdiff_empty, List.card_toFinset]
  · rw [countP_isMiss_add_isHit, hlog, length_expectedEvents, length_chunkPixels, PixelSize]

/-- C18 at a concrete input: pixels `A, B, A, A`, hence two misses and two hits. -/
theorem replaceColorsByClosestOne_calls_witness :
    ([1, 2, 3, 255, 200, 100, 0, 255, 1, 2, 3, 255, 1, 2, 3, 255] : ImageData).length % 4
      = 0 ∧
    ∃ image1 log,
      replaceColorsByClosestOne
        [1, 2, 3, 255, 200, 100, 0, 255, 1, 2, 3, 255, 1, 2, 3, 255]
        [0x000000FF, 0xFFFFFFFF] (fun c l => l ++ [CacheEvent.miss c])
        (fun c l => l ++ [CacheEvent.hit c]) [] = .ok (image1, log) ∧
      log = expectedEvents [0x000000FF, 0xFFFFFFFF]
        (pixelsOf [1, 2, 3, 255, 200, 100, 0, 255, 1, 2, 3, 255, 1, 2, 3, 255]) [] ∧
      log.countP CacheEvent.isMiss
        = (pixelsOf [1, 2, 3, 255, 200, 100, 0, 255, 1, 2, 3, 255, 1, 2, 3, 255]).dedup.length ∧
      log.countP CacheEvent.isMiss + log.countP CacheEvent.isHit
        = ([1, 2, 3, 255, 200, 100, 0, 255, 1, 2, 3, 255, 1, 2, 3, 255] : ImageData).length
          / PixelSize :=
  ⟨by decide, replaceColorsByClosestOne_calls _ _ (by decide)⟩

/-! ## Colour model: round trip -/

theorem getElem?_setPixel_of_ne (image : ImageData) (it : Nat) (c : Color) (j : Nat)
    (hj : j < it ∨ it + 3 < j) : (setPixel image it c)[j]? = image[j]? := by
  unfold setPixel
  rw [List.getElem?_set_ne (by omega), List.getElem?_set_ne (by omega),
    List.getElem?_set_ne (by omega), List.getElem?_set_ne (by omega)]

theorem length_setPixel (image : ImageData) (it : Nat) (c : Color) :
    (setPixel image it c).length = image.length := by
  unfold setPixel
  simp only [List.length_set]

theorem getPixel_setPixel (image : ImageData) (it : Nat) (c : Nat) (hc : c < 2 ^ 32)
    (hit : it + 3 < image.length) : getPixel (setPixel image it c) it = some c := by
  have h0 : (setPixel image it c)[it]? = some (red c) := by
    unfold setPixel
    rw [List.getElem?_set_ne (by omega), List.getElem?_set_ne (by omega),
      List.getElem?_set_ne (by omega), List.getElem?_set_self (by omega)]
  have h1 : (setPixel image it c)[it + 1]? = some (green c) := by
    unfold setPixel
    rw [List.getElem?_set_ne (by omega), List.getElem?_set_ne (by omega),
      List.getElem?_set_self (by simp only [List.length_set]; omega)]
  have h2 : (setPixel image it c)[it + 2]? = some (blue c) := by
    unfold setPixel
    rw [List.getElem?_set_ne (by omega),
      List.getElem?_set_self (by simp only [List.length_set]; omega)]
  have h3 : (setPixel image it c)[it + 3]? = some (alpha c) := by
    unfold setPixel
    rw [List.getElem?_set_self (by simp only [List.length_set]; omega)]
  rw [getPixel, h0, h1, h2, h3]
  simp only
  rw [pack_channels c hc]

/-- C19: the colour `getPixel` composes from four bytes has those bytes as its red, green,
blue and alpha channels; `getPixel` after `setPixel` of a 32-bit colour at a position
inside the buffer returns that colour, and `setPixel` keeps the length and every byte
outside the four of that pixel. -/
theorem color_model_round_trip (r g b a : Nat) (image : ImageData) (it : Nat) (c : Nat)
    (hr : r < 256) (hg : g < 256) (hb : b < 256) (ha : a < 256) (hc : c < 2 ^ 32)
    (hit : it + 3 < image.length) :
    (∃ p, getPixel [r, g, b, a] 0 = some p ∧
      red p = r ∧ green p = g ∧ blue p = b ∧ alpha p = a) ∧
    getPixel (setPixel image it c) it = some c ∧
    (setPixel image it c).length = image.length ∧
    ∀ j, (j < it ∨ it + 3 < j) → (setPixel image it c)[j]? = image[j]? := by
  refine ⟨⟨r <<< 24 ||| g <<< 16 ||| b <<< 8 ||| a, ?_, red_pack r g b a hr hg hb ha,
    green_pack r g b a hg hb ha, blue_pack r g b a hg hb ha, alpha_pack r g b a hg hb ha⟩,
    getPixel_setPixel image it c hc hit, length_setPixel image it c,
    fun j hj => getElem?_setPixel_of_ne image it c j hj⟩
  have := getPixel_append [] [] r g b a
  simpa using this

/-- C19 at a concrete input: the bytes `(18, 52, 86, 120)` and the colour `0xAABBCCDD`
written at the second pixel of a three-pixel buffer. -/
theorem color_model_round_trip_witness :
    (18 : Nat) < 256 ∧ (52 : Nat) < 256 ∧ (86 : Nat) < 256 ∧ (120 : Nat) < 256 ∧
    (0xAABBCCDD : Nat) < 2 ^ 32 ∧
    4 + 3 < ([0, 1, 2, 3, 4, 5, 6, 7, 8, 9, 10, 11] : ImageData).length ∧
    (∃ p, getPixel [18, 52, 86, 120] 0 = some p ∧
      red p = 18 ∧ green p = 52 ∧ blue p = 86 ∧ alpha p = 120) ∧
    getPixel (setPixel [0, 1, 2, 3, 4, 5, 6, 7, 8, 9, 10, 11] 4 0xAABBCCDD) 4
      = some 0xAABBCCDD ∧
    (setPixel [0, 1, 2, 3, 4, 5, 6, 7, 8, 9, 10, 11] 4 0xAABBCCDD).length
      = ([0, 1, 2, 3, 4, 5, 6, 7, 8, 9, 10, 11] : ImageData).length ∧
    ∀ j, (j < 4 ∨ 4 + 3 < j) →
      (setPixel [0, 1, 2, 3, 4, 5, 6, 7, 8, 9, 10, 11] 4 0xAABBCCDD)[j]?
        = ([0, 1, 2, 3, 4, 5, 6, 7, 8, 9, 10, 11] : ImageData)[j]? :=
  ⟨by decide, by decide, by decide, by decide, by decide, by decide,
    color_model_round_trip 18 52 86 120 _ 4 0xAABBCCDD (by decide) (by decide) (by decide)
      (by decide) (by decide) (by decide)⟩

/-! ## Opaque colours -/

theorem sq_bounds (x : Int) (h1 : -255 ≤ x) (h2 : x ≤ 255) : 0 ≤ x * x ∧ x * x ≤ 65025 := by
  constructor <;> nlinarith

/-- For two colours of alpha 255 the `int` value of the distance is the RGB squared
distance shifted by the constant `-66716671`, the wrapped value of `(255 * 255) ^ 2`. -/
theorem colorSquareDistanceInt_of_alpha_full (c p : Nat) (hc : alpha c = 255) (hp : alpha p = 255) :
    colorSquareDistanceInt c p = rgbSquareDistance c p - 66716671 := by
  have hr1 := red_lt c
  have hr2 := red_lt p
  have hg1 := green_lt c
  have hg2 := green_lt p
  have hb1 := blue_lt c
  have hb2 := blue_lt p
  obtain ⟨r0, r1⟩ := sq_bounds ((red c : Int) - (red p : Int)) (by omega) (by omega)
  obtain ⟨g0, g1⟩ := sq_bounds ((green c : Int) - (green p : Int)) (by omega) (by omega)
  obtain ⟨b0, b1⟩ := sq_bounds ((blue c : Int) - (blue p : Int)) (by omega) (by omega)
  have ha : wrapInt32 (((255 : Nat) : Int) * ((255 : Nat) : Int)
      * (((255 : Nat) : Int) * ((255 : Nat) : Int))) = -66716671 := by decide
  unfold colorSquareDistanceInt rgbSquareDistance
  simp only [hc, hp, ha, pow_two]
  generalize ((red c : Int) - (red p : Int)) * ((red c : Int) - (red p : Int)) = rr at r0 r1 ⊢
  generalize ((green c : Int) - (green p : Int)) * ((green c : Int) - (green p : Int)) = gg
    at g0 g1 ⊢
  generalize ((blue c : Int) - (blue p : Int)) * ((blue c : Int) - (blue p : Int)) = bb
    at b0 b1 ⊢
  rw [wrapInt32_of_range rr (by omega) (by omega), wrapInt32_of_range gg (by omega) (by omega),
    wrapInt32_of_range bb (by omega) (by omega),
    wrapInt32_of_range (rr + gg) (by omega) (by omega),
    wrapInt32_of_range (rr + gg + bb) (by omega) (by omega),
    wrapInt32_of_range (rr + gg + bb + -66716671) (by omega) (by omega)]
  omega

theorem eq_of_channels_eq (x y : Nat) (hx : x < 2 ^ 32) (hy : y < 2 ^ 32)
    (hr : red x = red y) (hg : green x = green y) (hb : blue x = blue y)
    (ha : alpha x = alpha y) : x = y := by
  rw [← pack_channels x hx, ← pack_channels y hy, hr, hg, hb, ha]

theorem rgbSquareDistance_pos (x y : Nat) (hx : x < 2 ^ 32) (hy : y < 2 ^ 32)
    (ha : alpha x = alpha y) (hne : x ≠ y) : 0 < rgbSquareDistance x y := by
  by_contra hle
  have hr := sq_nonneg ((red x : Int) - (red y : Int))
  have hg := sq_nonneg ((green x : Int) - (green y : Int))
  have hb := sq_nonneg ((blue x : Int) - (blue y : Int))
  unfold rgbSquareDistance at hle
  have hr0 : ((red x : Int) - (red y : Int)) ^ 2 = 0 := by omega
  have hg0 : ((green x : Int) - (green y : Int)) ^ 2 = 0 := by omega
  have hb0 : ((blue x : Int) - (blue y : Int)) ^ 2 = 0 := by omega
  have e1 : (red x : Int) - (red y : Int) = 0 := pow_eq_zero_iff (by norm_num) |>.1 hr0
  have e2 : (green x : Int) - (green y : Int) = 0 := pow_eq_zero_iff (by norm_num) |>.1 hg0
  have e3 : (blue x : Int) - (blue y : Int) = 0 := pow_eq_zero_iff (by norm_num) |>.1 hb0
  exact hne (eq_of_channels_eq x y hx hy (by omega) (by omega) (by omega) ha)

theorem rgbSquareDistance_self (x : Nat) : rgbSquareDistance x x = 0 := by
  unfold rgbSquareDistance
  simp

/-- C20: for colours of alpha 255 the `int` value `colorSquareDistanceInt` orders palette
entries exactly as the RGB squared distance does, 32-bit wrap-around included; hence in a
duplicate-free palette of 32-bit colours of alpha 255 every entry is strictly nearer to
itself than to any other entry, with that `int` value as the metric. -/
theorem opaque_alpha_term_cancels (c p q : Nat) (palette : Palette)
    (hc : alpha c = 255) (hp : alpha p = 255) (hq : alpha q = 255)
    (hpal : ∀ x ∈ palette, x < 2 ^ 32 ∧ alpha x = 255) (hnodup : palette.Nodup) :
    (colorSquareDistanceInt c p < colorSquareDistanceInt c q
      ↔ rgbSquareDistance c p < rgbSquareDistance c q) ∧
    ∀ (i j : Nat) (hi : i < palette.length) (hj : j < palette.length), i ≠ j →
      colorSquareDistanceInt palette[i] palette[i]
        < colorSquareDistanceInt palette[i] palette[j] := by
  constructor
  · rw [colorSquareDistanceInt_of_alpha_full c p hc hp, colorSquareDistanceInt_of_alpha_full c q hc hq]
    omega
  · intro i j hi hj hij
    have hxi := hpal palette[i] (List.getElem_mem _)
    have hxj := hpal palette[j] (List.getElem_mem _)
    have hne : palette[i] ≠ palette[j] := fun e => hij ((hnodup.getElem_inj_iff).1 e)
    have hpos := rgbSquareDistance_pos palette[i] palette[j] hxi.1 hxj.1
      (by rw [hxi.2, hxj.2]) hne
    rw [colorSquareDistanceInt_of_alpha_full _ _ hxi.2 hxi.2,
      colorSquareDistanceInt_of_alpha_full _ _ hxi.2 hxj.2, rgbSquareDistance_self]
    omega

/-- C20 at a concrete input: three opaque colours and a palette of three opaque
entries. -/
theorem opaque_alpha_term_cancels_witness :
    alpha 0x102030FF = 255 ∧ alpha 0x112030FF = 255 ∧ alpha 0xFFFFFFFF = 255 ∧
    (∀ x ∈ ([0x000000FF, 0x010000FF, 0xFFFFFFFF] : Palette), x < 2 ^ 32 ∧ alpha x = 255) ∧
    ([0x000000FF, 0x010000FF, 0xFFFFFFFF] : Palette).Nodup ∧
    (colorSquareDistanceInt 0x102030FF 0x112030FF < colorSquareDistanceInt 0x102030FF 0xFFFFFFFF
      ↔ rgbSquareDistance 0x102030FF 0x112030FF < rgbSquareDistance 0x102030FF 0xFFFFFFFF) ∧
    ∀ (i j : Nat) (hi : i < ([0x000000FF, 0x010000FF, 0xFFFFFFFF] : Palette).length)
      (hj : j < ([0x000000FF, 0x010000FF, 0xFFFFFFFF] : Palette).length), i ≠ j →
      colorSquareDistanceInt ([0x000000FF, 0x010000FF, 0xFFFFFFFF] : Palette)[i]
          ([0x000000FF, 0x010000FF, 0xFFFFFFFF] : Palette)[i]
        < colorSquareDistanceInt ([0x000000FF, 0x010000FF, 0xFFFFFFFF] : Palette)[i]
          ([0x000000FF, 0x010000FF, 0xFFFFFFFF] : Palette)[j] :=
  ⟨by decide, by decide, by decide, by decide, by decide,
    opaque_alpha_term_cancels 0x102030FF 0x112030FF 0xFFFFFFFF _ (by decide) (by decide)
      (by decide) (by decide) (by decide)⟩

/-- The `float` the code compares does not keep that strict order: the conversion rounds
the `int` values `-66716671` and `-66716670` to the same `float`, so the opaque palette
entry `(1,0,0,255)` is resolved to the earlier entry `(0,0,0,255)`. -/
theorem opaque_float_distance_ties :
    colorSquareDistanceInt 0x010000FF 0x010000FF < colorSquareDistanceInt 0x010000FF 0x000000FF ∧
    colorSquareDistance 0x010000FF 0x010000FF = colorSquareDistance 0x010000FF 0x000000FF ∧
    findClosestColor 0x010000FF [0x000000FF, 0x010000FF] = 0x000000FF :=
  ⟨by decide, by decide, by decide⟩

end ColorReducer
